import Mathlib

/-!
A shallow embedding of the IS20 fungible-token ledger engine
(`src/token/api/src/...`) and proofs about its balance/allowance/ledger
state machine and the cycle-auction settlement.

Conventions of the embedding:
* `Tokens128` values are represented as `Nat` together with explicit
  checked arithmetic (`tadd`, `tsub`) that fails above `2 ^ 128 - 1`,
  mirroring the checked `Tokens128` operations of the source.
* `Principal` is an opaque, decidable identity; we use `Nat`.
  `auction_principal` (the management canister) is a distinguished value.
* Rust `HashMap`s are embedded as association lists; the engine never
  creates duplicate keys (`aset` overwrites, `aremove` deletes), and
  key-uniqueness (`NodupKeys`) is carried as a hypothesis / invariant
  where a proof needs it.
* Fallible Rust code is embedded in the `Outcome` type: `ok` for a
  normal return, `err` for a returned `TxError`, and `trap` for a
  panic (`expect` / slice-out-of-range).  Canister-level operations
  return `Outcome TxId × CanisterState`; a `trap` rolls the state back
  to the state at entry (the IC runtime discards mutations of a
  trapped message), while an `err` keeps whatever mutations had been
  performed before the error was returned (the source returns `Err`
  through `RefCell`-backed state without undoing earlier writes).
* `f64` fee ratios cannot be embedded faithfully; the source only ever
  uses a ratio through the integer `(fee_ratio * 1e12) as u128`
  (`charge_fee` in `erc20_transactions.rs`), so the embedding passes
  that integer `k` directly; `ratio ∈ [0, 1]` becomes `k ≤ 10 ^ 12`.
-/

namespace IS20

/-- Opaque principal identity (29-byte wire form in the source; any type
with decidable equality works for the embedding). -/
abbrev Principal := Nat

/-- `Tokens128` values live below `2 ^ 128`. -/
def U128 : Nat := 2 ^ 128

/-- Checked `Tokens128` addition: `a + b` or overflow. -/
def tadd (a b : Nat) : Option Nat :=
  if a + b < U128 then some (a + b) else none

/-- Checked `Tokens128` subtraction: `a - b` or underflow. -/
def tsub (a b : Nat) : Option Nat :=
  if b ≤ a then some (a - b) else none

/-- The distinguished auction pool principal
(`Principal::management_canister()` in `is20_auction.rs`). -/
def auction_principal : Principal := 0

/-! ## Association maps

The engine's `HashMap`s are embedded as association lists with
first-occurrence lookup.  `aset` overwrites the first binding of the key
(or appends a fresh binding), `aremove` deletes the first binding:
on lists without duplicate keys these coincide with `HashMap::insert`
and `HashMap::remove`. -/

section AssocMap

variable {α β : Type} [DecidableEq α]

/-- First-occurrence lookup, `HashMap::get`. -/
def alookup : List (α × β) → α → Option β
  | [], _ => none
  | (q, v) :: t, p => if q = p then some v else alookup t p

/-- Overwrite the first binding of `p` (or append one), `HashMap::insert`. -/
def aset : List (α × β) → α → β → List (α × β)
  | [], p, v => [(p, v)]
  | (q, w) :: t, p, v => if q = p then (q, v) :: t else (q, w) :: aset t p v

/-- Delete the first binding of `p`, `HashMap::remove`. -/
def aremove : List (α × β) → α → List (α × β)
  | [], _ => []
  | (q, w) :: t, p => if q = p then t else (q, w) :: aremove t p

/-- The key set has no duplicates (always true of a `HashMap`). -/
def NodupKeys (l : List (α × β)) : Prop := (l.map Prod.fst).Nodup

instance : DecidablePred (NodupKeys (α := α) (β := β)) := by
  intro l; unfold NodupKeys; infer_instance

end AssocMap

/-! ## Sums over balance maps -/

/-- Sum of all values of a balance map (`Σ balances`). -/
def asum (l : List (Principal × Nat)) : Nat := (l.map Prod.snd).sum

/-- The value bound to a principal, zero if absent
(`Balances::balance_of`). -/
def balance_of (l : List (Principal × Nat)) (p : Principal) : Nat :=
  (alookup l p).getD 0

/-! ## Errors and outcomes -/

/-- `TxError` (`types.rs`); only the variants produced by the embedded
operations are listed. -/
inductive TxError : Type
  | InsufficientBalance
  | InsufficientAllowance
  | Unauthorized
  | AmountTooSmall
  | FeeExceededLimit
  | SelfTransfer
  | AmountOverflow
  deriving DecidableEq, Repr

/-- Result of running a fallible piece of code: a normal return, a
returned `TxError`, or a panic (`expect` failure / slice range error). -/
inductive Outcome (α : Type) : Type
  | ok (a : α)
  | err (e : TxError)
  | trap
  deriving DecidableEq, Repr

/-! ## Transaction records and the ledger (`ledger.rs`, `tx_record.rs`) -/

inductive TransactionStatus : Type
  | Succeeded
  | Failed
  deriving DecidableEq, Repr

inductive Operation : Type
  | Approve
  | Mint
  | Transfer
  | TransferFrom
  | Burn
  | Auction
  deriving DecidableEq, Repr

/-- One ledger record (`TxRecord` in `tx_record.rs`).  `from` is a Lean
keyword, so the `from`/`to` fields are named `fromP`/`toP`. -/
structure TxRecord : Type where
  caller : Option Principal
  index : Nat
  fromP : Principal
  toP : Principal
  amount : Nat
  fee : Nat
  timestamp : Nat
  status : TransactionStatus
  operation : Operation
  deriving DecidableEq, Repr

namespace TxRecord

/-- `TxRecord::transfer`; `now` models `ic::time()`. -/
def transfer (index now fromP toP amount fee : Nat) : TxRecord :=
  { caller := some fromP, index, fromP, toP, amount, fee, timestamp := now,
    status := .Succeeded, operation := .Transfer }

/-- `TxRecord::transfer_from`. -/
def transfer_from (index now caller fromP toP amount fee : Nat) : TxRecord :=
  { caller := some caller, index, fromP, toP, amount, fee, timestamp := now,
    status := .Succeeded, operation := .TransferFrom }

/-- `TxRecord::approve`. -/
def approve (index now fromP toP amount fee : Nat) : TxRecord :=
  { caller := some fromP, index, fromP, toP, amount, fee, timestamp := now,
    status := .Succeeded, operation := .Approve }

/-- `TxRecord::mint` (fee is zero). -/
def mint (index now fromP toP amount : Nat) : TxRecord :=
  { caller := some fromP, index, fromP, toP, amount, fee := 0,
    timestamp := now, status := .Succeeded, operation := .Mint }

/-- `TxRecord::burn` (fee is zero, `to` equals `from`). -/
def burn (index now caller fromP amount : Nat) : TxRecord :=
  { caller := some caller, index, fromP, toP := fromP, amount, fee := 0,
    timestamp := now, status := .Succeeded, operation := .Burn }

/-- `TxRecord::auction` (fee is zero, `caller` and `from` equal `to`). -/
def auction (index now toP amount : Nat) : TxRecord :=
  { caller := some toP, index, fromP := toP, toP, amount, fee := 0,
    timestamp := now, status := .Succeeded, operation := .Auction }

end TxRecord

def MAX_HISTORY_LENGTH : Nat := 1000000

def HISTORY_REMOVAL_BATCH_SIZE : Nat := 10000

/-- The transaction ledger (`Ledger` in `ledger.rs`): physical history,
id offset of the first retained record, and the pending-notification
map keyed by transaction index. -/
structure Ledger : Type where
  history : List TxRecord
  vec_offset : Nat
  notifications : List (Nat × Option Principal)
  deriving DecidableEq, Repr

namespace Ledger

def empty : Ledger := { history := [], vec_offset := 0, notifications := [] }

/-- `Ledger::len`: total number of ids ever assigned. -/
def len (l : Ledger) : Nat := l.vec_offset + l.history.length

/-- `Ledger::next_id` (identical to `len`). -/
def next_id (l : Ledger) : Nat := l.vec_offset + l.history.length

/-- `Ledger::get`.  The source also returns `None` when
`id > usize::MAX`, a branch that can never fire for a `u64` id on a
64-bit host, so it is not part of the embedding. -/
def get (l : Ledger) (id : Nat) : Option TxRecord :=
  if id < l.vec_offset then none else l.history.get? (id - l.vec_offset)

/-- `Ledger::push`: append the record, register a pending notification,
and when the physical history exceeds
`MAX_HISTORY_LENGTH + HISTORY_REMOVAL_BATCH_SIZE` drop the oldest
`HISTORY_REMOVAL_BATCH_SIZE` records in one batch (advancing
`vec_offset`) and drop their notification entries. -/
def push (l : Ledger) (record : TxRecord) : Ledger :=
  let history := l.history ++ [record]
  let notifications := aset l.notifications record.index none
  if MAX_HISTORY_LENGTH + HISTORY_REMOVAL_BATCH_SIZE < history.length then
    { history := history.drop HISTORY_REMOVAL_BATCH_SIZE
      vec_offset := l.vec_offset + HISTORY_REMOVAL_BATCH_SIZE
      notifications :=
        (history.take HISTORY_REMOVAL_BATCH_SIZE).foldl
          (fun n r => aremove n r.index) notifications }
  else
    { history, vec_offset := l.vec_offset, notifications }

/-- `Ledger::transfer`. -/
def transfer (l : Ledger) (now fromP toP amount fee : Nat) : Ledger :=
  l.push (TxRecord.transfer l.next_id now fromP toP amount fee)

/-- `Ledger::transfer_from`. -/
def transfer_from (l : Ledger) (now caller fromP toP amount fee : Nat) :
    Ledger :=
  l.push (TxRecord.transfer_from l.next_id now caller fromP toP amount fee)

/-- `Ledger::approve`. -/
def approve (l : Ledger) (now fromP toP amount fee : Nat) : Ledger :=
  l.push (TxRecord.approve l.next_id now fromP toP amount fee)

/-- `Ledger::mint` (the source uses `self.len()`, which equals
`next_id`). -/
def mint (l : Ledger) (now fromP toP amount : Nat) : Ledger :=
  l.push (TxRecord.mint l.len now fromP toP amount)

/-- `Ledger::burn`. -/
def burn (l : Ledger) (now caller fromP amount : Nat) : Ledger :=
  l.push (TxRecord.burn l.next_id now caller fromP amount)

/-- `Ledger::record_auction`. -/
def record_auction (l : Ledger) (now toP amount : Nat) : Ledger :=
  l.push (TxRecord.auction l.next_id now toP amount)

/-- Does a record involve `who` (as sender, recipient or caller)?  The
filter used by `Ledger::get_transactions` and
`Ledger::get_len_user_history`. -/
def involves (who : Option Principal) (tx : TxRecord) : Bool :=
  match who with
  | none => true
  | some c => c = tx.fromP || c = tx.toP || some c = tx.caller

/-- The id filter of `Ledger::get_transactions`: keep records whose
index is at most the given start id. -/
def beforeId (transaction_id : Option Nat) (tx : TxRecord) : Bool :=
  match transaction_id with
  | none => true
  | some id => tx.index ≤ id

/-- The combined record filter of `Ledger::get_transactions`. -/
def txFilter (who : Option Principal) (transaction_id : Option Nat)
    (tx : TxRecord) : Bool :=
  involves who tx && beforeId transaction_id tx

end Ledger

/-- `PaginatedResult` (`types.rs`). -/
structure PaginatedResult : Type where
  result : List TxRecord
  next : Option Nat
  deriving DecidableEq, Repr

namespace Ledger

/-- `Ledger::get_transactions`: walk the history newest-first, filter,
fetch `count + 1` records; if all `count + 1` exist the last one is
removed and its index returned as `next`. -/
def get_transactions (l : Ledger) (who : Option Principal) (count : Nat)
    (transaction_id : Option Nat) : PaginatedResult :=
  let transactions :=
    (l.history.reverse.filter (txFilter who transaction_id)).take (count + 1)
  if transactions.length = count + 1 then
    { result := transactions.take count
      next := (transactions.get? count).map TxRecord.index }
  else
    { result := transactions, next := none }

end Ledger

def MAX_TRANSACTION_QUERY_LEN : Nat := 1000

/-! ## Token state (`state.rs`, `types.rs`) -/

/-- Balance map (`Balances` wraps `HashMap<Principal, Tokens128>`). -/
abbrev Bal := List (Principal × Nat)

/-- Nested allowance map
(`Allowances = HashMap<Principal, HashMap<Principal, Tokens128>>`). -/
abbrev Allow := List (Principal × Bal)

/-- `StatsData` (`types.rs`). -/
structure StatsData : Type where
  logo : String
  name : String
  symbol : String
  decimals : Nat
  total_supply : Nat
  owner : Principal
  fee : Nat
  fee_to : Principal
  deploy_time : Nat
  min_cycles : Nat
  is_test_token : Bool
  deriving DecidableEq, Repr

/-- Init-time metadata (`Metadata` in `types.rs`). -/
structure Metadata : Type where
  logo : String
  name : String
  symbol : String
  decimals : Nat
  totalSupply : Nat
  owner : Principal
  fee : Nat
  feeTo : Principal
  isTestToken : Option Bool
  deriving DecidableEq, Repr

def DEFAULT_MIN_CYCLES : Nat := 10000000000000

/-- `impl From<Metadata> for StatsData`; `now` models `ic::time()` for
`deploy_time`. -/
def StatsData.ofMetadata (md : Metadata) (now : Nat) : StatsData :=
  { logo := md.logo, name := md.name, symbol := md.symbol
    decimals := md.decimals, total_supply := md.totalSupply
    owner := md.owner, fee := md.fee, fee_to := md.feeTo
    deploy_time := now, min_cycles := DEFAULT_MIN_CYCLES
    is_test_token := md.isTestToken.getD false }

/-- `CanisterState` (`state.rs`). -/
structure CanisterState : Type where
  balances : Bal
  stats : StatsData
  allowances : Allow
  ledger : Ledger
  deriving DecidableEq, Repr

/-- `CanisterState::allowance`: zero if either level is absent. -/
def CanisterState.allowance (s : CanisterState)
    (owner spender : Principal) : Nat :=
  match alookup s.allowances owner with
  | some inner => (alookup inner spender).getD 0
  | none => 0

/-- `TokenCanister::init` (`impl/src/canister.rs`): credit the owner
with the whole supply, record the initial mint, set the stats. -/
def initState (md : Metadata) (now : Nat) : CanisterState :=
  { balances := aset [] md.owner md.totalSupply
    stats := StatsData.ofMetadata md now
    allowances := []
    ledger := Ledger.mint Ledger.empty now md.owner md.owner md.totalSupply }

/-! ## Balance movement (`erc20_transactions.rs`) -/

/-- `transfer_balance`: no-op on a zero amount; otherwise debit `fromP`
(error `InsufficientBalance` if absent or under), credit `toP`
(`entry().or_default()` plus a checked add whose failure is a panic),
then drop `fromP`'s entry if it reached zero. -/
def transfer_balance (b : Bal) (fromP toP : Principal) (amount : Nat) :
    Outcome Bal :=
  if amount = 0 then .ok b
  else
    match alookup b fromP with
    | none => .err .InsufficientBalance
    | some from_balance =>
      match tsub from_balance amount with
      | none => .err .InsufficientBalance
      | some fb =>
        let b1 := aset b fromP fb
        let to_balance := (alookup b1 toP).getD 0
        match tadd to_balance amount with
        | none => .trap
        | some tb =>
          let b2 := aset b1 toP tb
          match alookup b2 fromP with
          | none => .trap
          | some fb2 => .ok (if fb2 = 0 then aremove b2 fromP else b2)

def INT_CONVERSION_K : Nat := 1000000000000

/-- `charge_fee`: no-op on a zero fee; otherwise route
`auction_fee_amount = fee * k / 10^12` to the auction principal and the
remainder to `fee_to`.  `k` is the integer the source computes as
`(fee_ratio * INT_CONVERSION_K as f64) as u128`; the `Tokens256`
intermediate of the source cannot overflow, and `to_tokens128` /
`fee - auction_fee_amount` panic (trap) when their checks fail. -/
def charge_fee (b : Bal) (user fee_to : Principal) (fee k : Nat) :
    Outcome Bal :=
  if fee = 0 then .ok b
  else
    let auction_fee_amount := fee * k / INT_CONVERSION_K
    if U128 ≤ auction_fee_amount then .trap
    else
      match tsub fee auction_fee_amount with
      | none => .trap
      | some owner_fee_amount =>
        match transfer_balance b user fee_to owner_fee_amount with
        | .ok b1 =>
          match transfer_balance b1 user auction_principal
              auction_fee_amount with
          | .ok b2 => .ok b2
          | .err e => .err e
          | .trap => .trap
        | .err e => .err e
        | .trap => .trap

/-! ## Engine operations (`erc20_transactions.rs`)

Each operation takes the state and returns the outcome paired with the
post state.  A `trap` leaves the entry state (the IC runtime rolls a
trapped message back); an `err` keeps any mutation already performed,
exactly as the source's early `return Err(...)` does. -/

/-- `transfer` (European fee style).  `k` is the integer fee-ratio
scaling (see `charge_fee`); `now` models `ic::time()`. -/
def transfer (s : CanisterState) (caller toP : Principal) (amount : Nat)
    (fee_limit : Option Nat) (k now : Nat) :
    Outcome Nat × CanisterState :=
  let fee := s.stats.fee
  let fee_to := s.stats.fee_to
  let exceeded : Bool := match fee_limit with
    | some fl => decide (fl < fee)
    | none => false
  if exceeded then (.err .FeeExceededLimit, s)
  else
    match tadd amount fee with
    | none => (.err .AmountOverflow, s)
    | some need =>
      if balance_of s.balances caller < need then
        (.err .InsufficientBalance, s)
      else
        match charge_fee s.balances caller fee_to fee k with
        | .ok b1 =>
          match transfer_balance b1 caller toP amount with
          | .ok b2 =>
            let id := s.ledger.len
            (.ok id, { s with balances := b2
                              ledger := s.ledger.transfer now caller toP
                                amount fee })
          | _ => (.trap, s)
        | _ => (.trap, s)

/-- `transfer_from`.  The allowance is read up front; after the balance
moves it is decremented through `get_mut(..).expect(..)` calls, which
panic when the entry is absent. -/
def transfer_from (s : CanisterState) (caller fromP toP : Principal)
    (amount : Nat) (k now : Nat) : Outcome Nat × CanisterState :=
  let from_allowance := s.allowance fromP caller
  let fee := s.stats.fee
  let fee_to := s.stats.fee_to
  match tadd amount fee with
  | none => (.err .AmountOverflow, s)
  | some value_with_fee =>
    if from_allowance < value_with_fee then
      (.err .InsufficientAllowance, s)
    else if balance_of s.balances fromP < value_with_fee then
      (.err .InsufficientBalance, s)
    else
      match charge_fee s.balances fromP fee_to fee k with
      | .ok b1 =>
        match transfer_balance b1 fromP toP amount with
        | .ok b2 =>
          match alookup s.allowances fromP with
          | none => (.trap, s)
          | some inner =>
            match alookup inner caller with
            | none => (.trap, s)
            | some allowance =>
              match tsub allowance value_with_fee with
              | none => (.trap, s)
              | some a2 =>
                let inner1 := aset inner caller a2
                let allowances :=
                  if a2 = 0 then
                    let inner2 := aremove inner1 caller
                    if inner2 = [] then aremove s.allowances fromP
                    else aset s.allowances fromP inner2
                  else aset s.allowances fromP inner1
                let id := s.ledger.len
                (.ok id, { s with balances := b2, allowances
                                  ledger := s.ledger.transfer_from now
                                    caller fromP toP amount fee })
        | _ => (.trap, s)
      | _ => (.trap, s)

/-- `approve`.  Note the source charges the fee before the
`amount + fee` overflow check, so the `AmountOverflow` error is
returned with the fee already moved. -/
def approve (s : CanisterState) (caller spender : Principal)
    (amount : Nat) (k now : Nat) : Outcome Nat × CanisterState :=
  let fee := s.stats.fee
  let fee_to := s.stats.fee_to
  if balance_of s.balances caller < fee then (.err .InsufficientBalance, s)
  else
    match charge_fee s.balances caller fee_to fee k with
    | .ok b1 =>
      match tadd amount fee with
      | none => (.err .AmountOverflow, { s with balances := b1 })
      | some amount_with_fee =>
        let allowances :=
          if amount_with_fee = 0 then
            match alookup s.allowances caller with
            | some inner =>
              let inner1 := aremove inner spender
              if inner1 = [] then aremove s.allowances caller
              else aset s.allowances caller inner1
            | none => s.allowances
          else
            aset s.allowances caller
              (aset ((alookup s.allowances caller).getD []) spender
                amount_with_fee)
        let id := s.ledger.len
        (.ok id, { s with balances := b1, allowances
                          ledger := s.ledger.approve now caller spender
                            amount fee })
    | _ => (.trap, s)

/-- `mint`: checked supply increase, then credit `toP`
(`entry().or_default()` plus an add whose overflow is a panic). -/
def mint (s : CanisterState) (caller toP : Principal) (amount now : Nat) :
    Outcome Nat × CanisterState :=
  match tadd s.stats.total_supply amount with
  | none => (.err .AmountOverflow, s)
  | some supply =>
    let balance := (alookup s.balances toP).getD 0
    match tadd balance amount with
    | none => (.trap, s)
    | some new_balance =>
      let id := s.ledger.len
      (.ok id, { s with
        stats := { s.stats with total_supply := supply }
        balances := aset s.balances toP new_balance
        ledger := s.ledger.mint now caller toP amount })

/-- `burn`: debit `fromP` (when its entry is absent, a nonzero amount is
`InsufficientBalance` and a zero amount a no-op), prune a zero balance,
then decrease the supply (a panic if it would underflow). -/
def burn (s : CanisterState) (caller fromP : Principal) (amount now : Nat) :
    Outcome Nat × CanisterState :=
  let step : Outcome Bal :=
    match alookup s.balances fromP with
    | some balance =>
      match tsub balance amount with
      | none => .err .InsufficientBalance
      | some b2 =>
        .ok (if b2 = 0 then aremove (aset s.balances fromP b2) fromP
             else aset s.balances fromP b2)
    | none =>
      if amount ≠ 0 then .err .InsufficientBalance else .ok s.balances
  match step with
  | .err e => (.err e, s)
  | .trap => (.trap, s)
  | .ok balances =>
    match tsub s.stats.total_supply amount with
    | none => (.trap, s)
    | some supply =>
      let id := s.ledger.len
      (.ok id, { s with balances := balances
                        stats := { s.stats with total_supply := supply }
                        ledger := s.ledger.burn now caller fromP amount })

/-! ## Auction settlement (`is20_auction.rs`) -/

/-- `accumulated_fees`: the auction principal's balance. -/
def accumulated_fees (b : Bal) : Nat := balance_of b auction_principal

/-- `AuctionInfo` (from the `ic_auction` crate, as constructed by
`disburse_rewards`).  `fee_ratio` is carried as the integer scaling
`k`. -/
structure AuctionInfo : Type where
  auction_id : Nat
  auction_time : Nat
  tokens_distributed : Nat
  cycles_collected : Nat
  fee_ratio_k : Nat
  first_transaction_id : Nat
  last_transaction_id : Nat
  deriving DecidableEq, Repr

/-- The bidder loop of `disburse_rewards`: for each bid compute
`total_amount * cycles / total_cycles` (a panic when `total_cycles` is
zero or the quotient exceeds `Tokens128`), move it out of the auction
pool, record an `Auction` ledger entry, and accumulate the amount
transferred. -/
def disburse_loop (total_amount total_cycles now : Nat) :
    List (Principal × Nat) → Bal → Ledger → Nat →
    Outcome (Bal × Ledger × Nat)
  | [], b, l, transferred => .ok (b, l, transferred)
  | (bidder, cycles) :: rest, b, l, transferred =>
    if total_cycles = 0 then .trap
    else
      let amount := total_amount * cycles / total_cycles
      if U128 ≤ amount then .trap
      else
        match transfer_balance b auction_principal bidder amount with
        | .ok b1 =>
          let l1 := l.record_auction now bidder amount
          match tadd transferred amount with
          | none => .trap
          | some transferred1 =>
            disburse_loop total_amount total_cycles now rest b1 l1
              transferred1
        | _ => .trap

/-- `disburse_rewards`.  The bidding state lives in the external
`ic_auction` crate; its `bids` map and `cycles_since_auction` counter
are passed in (`history_len` stands for `auction_state.history.len()`).
A trap anywhere rolls the state back. -/
def disburse_rewards (s : CanisterState) (bids : List (Principal × Nat))
    (total_cycles history_len k now : Nat) :
    Outcome AuctionInfo × CanisterState :=
  let total_amount := accumulated_fees s.balances
  let first_transaction_id := s.ledger.len
  match disburse_loop total_amount total_cycles now bids s.balances
      s.ledger 0 with
  | .ok (b, l, transferred) =>
    let info : AuctionInfo :=
      { auction_id := history_len
        auction_time := now
        tokens_distributed := transferred
        cycles_collected := total_cycles
        fee_ratio_k := k
        first_transaction_id
        last_transaction_id := l.len - 1 }
    (.ok info, { s with balances := b, ledger := l })
  | _ => (.trap, s)

/-! ## Holder query (`state.rs`) -/

inductive Reachable (md : Metadata) (now0 : Nat) : CanisterState → Prop
  | init : Reachable md now0 (initState md now0)
  | transfer {s} (caller toP amount fee_limit k now) :
      Reachable md now0 s →
      Reachable md now0 (transfer s caller toP amount fee_limit k now).2
  | transfer_from {s} (caller fromP toP amount k now) :
      Reachable md now0 s →
      Reachable md now0 (transfer_from s caller fromP toP amount k now).2
  | approve {s} (caller spender amount k now) :
      Reachable md now0 s →
      Reachable md now0 (approve s caller spender amount k now).2
  | mint {s} (caller toP amount now) :
      Reachable md now0 s →
      Reachable md now0 (mint s caller toP amount now).2
  | burn {s} (caller fromP amount now) :
      Reachable md now0 s →
      Reachable md now0 (burn s caller fromP amount now).2
  | disburse {s} (bids total_cycles history_len k now) :
      Reachable md now0 s →
      Reachable md now0
        (disburse_rewards s bids total_cycles history_len k now).2

/-- No entry holds value zero (invariant B1 of the spec, restricted to
the literal bindings of the map). -/
def ZeroFree (b : Bal) : Prop := ∀ x ∈ b, x.2 ≠ 0

instance : DecidablePred ZeroFree := by
  intro b; unfold ZeroFree; infer_instance

/-! ## Claim C4: zero-elision invariants -/

/-- The zero-elision properties claimed by the spec: no zero balance
entry, no zero allowance entry, no empty inner allowance map. -/
def ZeroElision (s : CanisterState) : Prop :=
  ZeroFree s.balances ∧
  (∀ x ∈ s.allowances, x.2 ≠ []) ∧
  (∀ x ∈ s.allowances, ∀ y ∈ x.2, y.2 ≠ 0)

instance : DecidablePred ZeroElision := by
  intro s; unfold ZeroElision; infer_instance

/-- Strengthened induction invariant: zero-elision together with key
uniqueness of every map (true of the source's `HashMap`s). -/
def StateWF (s : CanisterState) : Prop :=
  NodupKeys s.balances ∧ NodupKeys s.allowances ∧
  (∀ x ∈ s.allowances, NodupKeys x.2) ∧ ZeroElision s

/-- The reachable-state relation restricted as claim C4's counterexample
forces: a `mint` step must either mint a nonzero amount or mint to a
principal already holding a balance (otherwise `entry(to).or_default()`
inserts a zero balance entry). -/
inductive GoodReachable (md : Metadata) (now0 : Nat) : CanisterState → Prop
  | init : GoodReachable md now0 (initState md now0)
  | transfer {s} (caller toP amount fee_limit k now) :
      GoodReachable md now0 s →
      GoodReachable md now0 (transfer s caller toP amount fee_limit k now).2
  | transfer_from {s} (caller fromP toP amount k now) :
      GoodReachable md now0 s →
      GoodReachable md now0
        (transfer_from s caller fromP toP amount k now).2
  | approve {s} (caller spender amount k now) :
      GoodReachable md now0 s →
      GoodReachable md now0 (approve s caller spender amount k now).2
  | mint {s} (caller toP amount now)
      (hgood : amount ≠ 0 ∨ alookup s.balances toP ≠ none) :
      GoodReachable md now0 s →
      GoodReachable md now0 (mint s caller toP amount now).2
  | burn {s} (caller fromP amount now) :
      GoodReachable md now0 s →
      GoodReachable md now0 (burn s caller fromP amount now).2
  | disburse {s} (bids total_cycles history_len k now) :
      GoodReachable md now0 s →
      GoodReachable md now0
        (disburse_rewards s bids total_cycles history_len k now).2

/-- Concrete metadata used by witnesses and counterexamples: principal 1
owns a supply of 1000 tokens, fee 0. -/
def mdW : Metadata :=
  { logo := "", name := "", symbol := "", decimals := 8,
    totalSupply := 1000, owner := 1, fee := 0, feeTo := 1,
    isTestToken := none }

/-- Concrete state for the C2 witness: principal 1 holds the whole
1000-token supply, fee 50 paid to principal 3. -/
def sC2w : CanisterState :=
  { balances := [(1, 1000)]
    stats := { logo := "", name := "", symbol := "", decimals := 8,
               total_supply := 1000, owner := 1, fee := 50, fee_to := 3,
               deploy_time := 0, min_cycles := 0, is_test_token := false }
    allowances := []
    ledger := Ledger.empty }

/-- Concrete state for the C2 counterexample: fee 5 is routed back to
the caller (`fee_to = caller = 1`). -/
def sC2c : CanisterState :=
  { balances := [(1, 10)]
    stats := { logo := "", name := "", symbol := "", decimals := 0,
               total_supply := 10, owner := 1, fee := 5, fee_to := 1,
               deploy_time := 0, min_cycles := 0, is_test_token := false }
    allowances := []
    ledger := Ledger.empty }

/-- Concrete state for the C9 counterexample: fee 5, fee recipient 3. -/
def sC9 : CanisterState :=
  { balances := [(1, 10)]
    stats := { logo := "", name := "", symbol := "", decimals := 0,
               total_supply := 10, owner := 1, fee := 5, fee_to := 3,
               deploy_time := 0, min_cycles := 0, is_test_token := false }
    allowances := []
    ledger := Ledger.empty }

/-! ## Claim C3: the `transfer_from` contract -/

/-- Concrete state for the C3 failing input: fee 0 and no allowance
whatsoever. -/
def sC3 : CanisterState :=
  { balances := [(1, 10)]
    stats := { logo := "", name := "", symbol := "", decimals := 0,
               total_supply := 10, owner := 1, fee := 0, fee_to := 3,
               deploy_time := 0, min_cycles := 0, is_test_token := false }
    allowances := []
    ledger := Ledger.empty }

/-! ## Claim C5: ledger truncation, `get`, and stable indices -/

/-- Invariant L1-part: the retained record at physical position `i` has
index `vec_offset + i`. -/
def WellIndexed (l : Ledger) : Prop :=
  ∀ i (h : i < l.history.length),
    (l.history.get ⟨i, h⟩).index = l.vec_offset + i

/-- A well-indexed transfer record used by the C5 witness. -/
def recW (i : Nat) : TxRecord := TxRecord.transfer i 0 1 2 3 0

/-- A full ledger (physical length exactly
`MAX_HISTORY + REMOVAL_BATCH`) used by the C5 witness. -/
def ledgerW : Ledger :=
  { history := (List.range 1010000).map recW
    vec_offset := 0
    notifications := [] }

/-! ## Claim C6: paginated transaction query -/

/-- `TokenCanisterAPI::get_transactions`: the requested count is capped
at `MAX_TRANSACTION_QUERY_LEN` before the ledger query runs. -/
def get_transactions_api (s : CanisterState) (who : Option Principal)
    (count : Nat) (transaction_id : Option Nat) : PaginatedResult :=
  s.ledger.get_transactions who (min count MAX_TRANSACTION_QUERY_LEN)
    transaction_id

/-- A transfer record with index `i`, used by the C6 counterexample and
witness. -/
def recC6 (i : Nat) : TxRecord := TxRecord.transfer i 0 1 2 3 0

/-- A state whose ledger holds 1002 records, used to show a query for
1001 records is silently capped at 1000. -/
def sC6 : CanisterState :=
  { balances := aset [] 1 1000
    stats := StatsData.ofMetadata mdW 0
    allowances := []
    ledger := { history := (List.range 1002).map recC6
                vec_offset := 0
                notifications := [] } }

/-- A state whose ledger holds three records, used by the C6 witness. -/
def sW6 : CanisterState :=
  { balances := aset [] 1 1000
    stats := StatsData.ofMetadata mdW 0
    allowances := []
    ledger := { history := [recC6 0, recC6 1, recC6 2]
                vec_offset := 0
                notifications := [] } }

/-! ## Claim C8: auction reward disbursement -/

/-- The total of the per-bidder shares `total_amount * cycles /
total_cycles` over a bid list. -/
def sharesSum (total_amount total_cycles : Nat)
    (bids : List (Principal × Nat)) : Nat :=
  (bids.map (fun pc => total_amount * pc.2 / total_cycles)).sum

/-- The ledger effect of the `disburse_rewards` loop: one
`record_auction` per bid, in order. -/
def auctionPushes (now total_amount total_cycles : Nat) :
    Ledger → List (Principal × Nat) → Ledger
  | l, [] => l
  | l, (bidder, cycles) :: rest =>
    auctionPushes now total_amount total_cycles
      (l.record_auction now bidder (total_amount * cycles / total_cycles))
      rest

/-- The auction records appended by the loop, indexed consecutively
from `base`. -/
def auctionRecords (now total_amount total_cycles : Nat) :
    Nat → List (Principal × Nat) → List TxRecord
  | _, [] => []
  | base, (bidder, cycles) :: rest =>
    TxRecord.auction base now bidder
        (total_amount * cycles / total_cycles) ::
      auctionRecords now total_amount total_cycles (base + 1) rest

/-- A state with a 6000-token auction pool, used by the C8 witness. -/
def sC8 : CanisterState :=
  { balances := aset (aset [] 1 1000) 0 6000
    stats := StatsData.ofMetadata mdW 0
    allowances := []
    ledger := Ledger.empty }

/-! ## Association-map lemmas -/

section AssocMap

variable {α β : Type} [DecidableEq α]

theorem alookup_aset_self (l : List (α × β)) (p : α) (v : β) :
    alookup (aset l p v) p = some v := by
  induction l with
  | nil => simp [aset, alookup]
  | cons hd t ih =>
    obtain ⟨q, w⟩ := hd
    by_cases h : q = p <;> simp [aset, alookup, h, ih]

theorem alookup_aset_ne (l : List (α × β)) {p q : α} (v : β) (h : q ≠ p) :
    alookup (aset l p v) q = alookup l q := by
  have hpq : ¬p = q := fun hh => h hh.symm
  induction l with
  | nil => simp [aset, alookup, hpq]
  | cons hd t ih =>
    obtain ⟨r, w⟩ := hd
    by_cases hr : r = p
    · subst hr
      simp [aset, alookup, hpq]
    · simp only [aset, if_neg hr, alookup]
      by_cases hq : r = q <;> simp [hq, ih]

theorem alookup_aremove_ne (l : List (α × β)) {p q : α} (h : q ≠ p) :
    alookup (aremove l p) q = alookup l q := by
  have hpq : ¬p = q := fun hh => h hh.symm
  induction l with
  | nil => simp [aremove]
  | cons hd t ih =>
    obtain ⟨r, w⟩ := hd
    by_cases hr : r = p
    · subst hr
      simp [aremove, alookup, hpq]
    · simp only [aremove, if_neg hr, alookup]
      by_cases hq : r = q <;> simp [hq, ih]

theorem keys_aremove_sublist (l : List (α × β)) (p : α) :
    ((aremove l p).map Prod.fst).Sublist (l.map Prod.fst) := by
  induction l with
  | nil => simp [aremove]
  | cons hd t ih =>
    obtain ⟨r, w⟩ := hd
    by_cases hr : r = p
    · simp only [aremove, if_pos hr, List.map_cons]
      exact List.sublist_cons_self _ _
    · simp only [aremove, if_neg hr, List.map_cons]
      exact ih.cons₂ _

theorem nodup_aremove {l : List (α × β)} (p : α) (h : NodupKeys l) :
    NodupKeys (aremove l p) :=
  List.Nodup.sublist (keys_aremove_sublist l p) h

theorem mem_aremove_subset {l : List (α × β)} {x : α × β} {p : α}
    (h : x ∈ aremove l p) : x ∈ l := by
  induction l with
  | nil => simp [aremove] at h
  | cons hd t ih =>
    obtain ⟨r, w⟩ := hd
    by_cases hr : r = p
    · simp only [aremove, if_pos hr] at h
      exact List.mem_cons_of_mem _ h
    · simp only [aremove, if_neg hr, List.mem_cons] at h
      rcases h with h | h
      · exact h ▸ List.mem_cons_self _ _
      · exact List.mem_cons_of_mem _ (ih h)

theorem keys_aset_cases (t : List (α × β)) (p : α) (v : β) {r : α}
    (hmem : r ∈ (aset t p v).map Prod.fst) :
    r = p ∨ r ∈ t.map Prod.fst := by
  induction t with
  | nil =>
    simp only [aset, List.map_cons, List.map_nil, List.mem_cons,
      List.not_mem_nil, or_false] at hmem
    exact Or.inl hmem
  | cons hd t ih =>
    obtain ⟨q, w⟩ := hd
    by_cases hq : q = p
    · subst hq
      simp only [aset, if_true, eq_self_iff_true, List.map_cons,
        List.mem_cons] at hmem
      rcases hmem with h | h
      · exact Or.inl h
      · exact Or.inr (List.mem_cons_of_mem _ h)
    · simp only [aset, if_neg hq, List.map_cons, List.mem_cons] at hmem
      rcases hmem with h | h
      · exact Or.inr (h ▸ List.mem_cons_self _ _)
      · rcases ih h with h' | h'
        · exact Or.inl h'
        · exact Or.inr (List.mem_cons_of_mem _ h')

theorem nodup_aset {l : List (α × β)} (p : α) (v : β) (h : NodupKeys l) :
    NodupKeys (aset l p v) := by
  induction l with
  | nil => simp [aset, NodupKeys]
  | cons hd t ih =>
    obtain ⟨r, w⟩ := hd
    unfold NodupKeys at h
    simp only [List.map_cons, List.nodup_cons] at h
    by_cases hr : r = p
    · subst hr
      unfold NodupKeys
      simp only [aset, if_true, eq_self_iff_true, List.map_cons,
        List.nodup_cons]
      exact h
    · unfold NodupKeys
      simp only [aset, if_neg hr, List.map_cons, List.nodup_cons]
      refine ⟨?_, ih h.2⟩
      intro hmem
      rcases keys_aset_cases t p v hmem with h' | h'
      · exact hr h'
      · exact h.1 h'

theorem mem_aset_cases {l : List (α × β)} {p : α} {v : β} {x : α × β}
    (h : x ∈ aset l p v) : x = (p, v) ∨ x ∈ l := by
  induction l with
  | nil => simp [aset] at h; exact Or.inl h
  | cons hd t ih =>
    obtain ⟨q, w⟩ := hd
    by_cases hq : q = p
    · subst hq
      simp only [aset, if_true, eq_self_iff_true, List.mem_cons] at h
      rcases h with h | h
      · exact Or.inl h
      · exact Or.inr (List.mem_cons_of_mem _ h)
    · simp only [aset, if_neg hq, List.mem_cons] at h
      rcases h with h | h
      · exact Or.inr (h ▸ List.mem_cons_self _ _)
      · rcases ih h with h' | h'
        · exact Or.inl h'
        · exact Or.inr (List.mem_cons_of_mem _ h')

theorem alookup_aremove_self {l : List (α × β)} (p : α) (h : NodupKeys l) :
    alookup (aremove l p) p = none := by
  induction l with
  | nil => simp [aremove, alookup]
  | cons hd t ih =>
    obtain ⟨r, w⟩ := hd
    unfold NodupKeys at h
    simp only [List.map_cons, List.nodup_cons] at h
    by_cases hr : r = p
    · subst hr
      simp only [aremove, if_true, eq_self_iff_true]
      clear ih
      induction t with
      | nil => simp [alookup]
      | cons hd2 t2 ih2 =>
        obtain ⟨s, u⟩ := hd2
        simp only [List.map_cons, List.mem_cons, List.nodup_cons] at h
        by_cases hs : s = r
        · exact absurd (Or.inl hs.symm) h.1
        · simp only [alookup, if_neg hs]
          exact ih2 ⟨fun hm => h.1 (Or.inr hm), h.2.2⟩
    · simp only [aremove, if_neg hr, alookup, if_neg hr]
      exact ih h.2

theorem alookup_eq_some_of_mem {l : List (α × β)} {x : α × β}
    (hnd : NodupKeys l) (hx : x ∈ l) : alookup l x.1 = some x.2 := by
  induction l with
  | nil => simp at hx
  | cons hd t ih =>
    obtain ⟨q, w⟩ := hd
    unfold NodupKeys at hnd
    simp only [List.map_cons, List.nodup_cons] at hnd
    simp only [List.mem_cons] at hx
    rcases hx with hx | hx
    · subst hx; simp [alookup]
    · by_cases hq : q = x.1
      · exact absurd (hq ▸ List.mem_map_of_mem Prod.fst hx) hnd.1
      · simp only [alookup, if_neg hq]
        exact ih hnd.2 hx

theorem mem_of_alookup_eq_some {l : List (α × β)} {p : α} {v : β}
    (h : alookup l p = some v) : (p, v) ∈ l := by
  induction l with
  | nil => simp [alookup] at h
  | cons hd t ih =>
    obtain ⟨q, w⟩ := hd
    by_cases hq : q = p
    · subst hq
      simp only [alookup, if_true, eq_self_iff_true, Option.some.injEq] at h
      exact h ▸ List.mem_cons_self _ _
    · simp only [alookup, if_neg hq] at h
      exact List.mem_cons_of_mem _ (ih h)

end AssocMap

theorem asum_aset (l : List (Principal × Nat)) (p : Principal) (v : Nat) :
    asum (aset l p v) + balance_of l p = asum l + v := by
  induction l with
  | nil => simp [aset, asum, balance_of, alookup]
  | cons hd t ih =>
    obtain ⟨q, w⟩ := hd
    by_cases hq : q = p
    · subst hq
      simp only [aset, if_true, eq_self_iff_true, asum, List.map_cons,
        List.sum_cons, balance_of, alookup, Option.getD_some]
      omega
    · simp only [aset, if_neg hq, asum, List.map_cons, List.sum_cons,
        balance_of, alookup, if_neg hq]
      have := ih
      simp only [asum, balance_of] at this
      omega

theorem asum_aremove (l : List (Principal × Nat)) (p : Principal) :
    asum (aremove l p) + balance_of l p = asum l := by
  induction l with
  | nil => simp [aremove, asum, balance_of, alookup]
  | cons hd t ih =>
    obtain ⟨q, w⟩ := hd
    by_cases hq : q = p
    · subst hq
      simp only [aremove, if_true, eq_self_iff_true, asum, List.map_cons,
        List.sum_cons, balance_of, alookup, Option.getD_some]
      omega
    · simp only [aremove, if_neg hq, asum, List.map_cons, List.sum_cons,
        balance_of, alookup, if_neg hq]
      have := ih
      simp only [asum, balance_of] at this
      omega

theorem balance_of_le_asum (l : List (Principal × Nat)) (p : Principal) :
    balance_of l p ≤ asum l := by
  have h := asum_aremove l p
  omega

theorem balance_of_aremove_ne (l : List (Principal × Nat)) {p q : Principal}
    (h : q ≠ p) : balance_of (aremove l p) q = balance_of l q := by
  simp [balance_of, alookup_aremove_ne l h]

/-- Two distinct keys together hold at most the whole sum. -/
theorem balance_pair_le_asum (l : List (Principal × Nat)) {p q : Principal}
    (hpq : p ≠ q) : balance_of l p + balance_of l q ≤ asum l := by
  have h1 := asum_aremove l p
  have h2 := balance_of_le_asum (aremove l p) q
  have h3 := balance_of_aremove_ne l (q := q) (fun hh => hpq hh.symm)
  omega

/-! ## Map lemmas for the engine proofs -/

theorem tadd_eq_some {a b c : Nat} :
    tadd a b = some c ↔ a + b < U128 ∧ c = a + b := by
  unfold tadd
  by_cases h : a + b < U128 <;> simp [h, eq_comm]

theorem tsub_eq_some {a b c : Nat} :
    tsub a b = some c ↔ b ≤ a ∧ c = a - b := by
  unfold tsub
  by_cases h : b ≤ a <;> simp [h, eq_comm]

theorem balance_of_aset_self (l : Bal) (p : Principal) (v : Nat) :
    balance_of (aset l p v) p = v := by
  simp [balance_of, alookup_aset_self]

theorem balance_of_aset_ne (l : Bal) {p q : Principal} (v : Nat)
    (h : q ≠ p) : balance_of (aset l p v) q = balance_of l q := by
  simp [balance_of, alookup_aset_ne l v h]

theorem balance_of_aremove_self {l : Bal} (p : Principal)
    (h : NodupKeys l) : balance_of (aremove l p) p = 0 := by
  simp [balance_of, alookup_aremove_self p h]

theorem alookup_of_balance_pos {l : Bal} {p : Principal}
    (h : 0 < balance_of l p) : alookup l p = some (balance_of l p) := by
  unfold balance_of at h ⊢
  cases halookup : alookup l p with
  | none => rw [halookup] at h; simp at h
  | some v => simp [halookup]

theorem mem_aset_iff {l : List (Principal × Nat)} {p : Principal} {v : Nat}
    {x : Principal × Nat} (hnd : NodupKeys l) :
    x ∈ aset l p v ↔ x = (p, v) ∨ (x ∈ l ∧ x.1 ≠ p) := by
  induction l with
  | nil => simp [aset]
  | cons hd t ih =>
    obtain ⟨q, w⟩ := hd
    unfold NodupKeys at hnd
    simp only [List.map_cons, List.nodup_cons] at hnd
    by_cases hq : q = p
    · subst hq
      simp only [aset, if_true, eq_self_iff_true, List.mem_cons]
      constructor
      · rintro (h | h)
        · exact Or.inl h
        · refine Or.inr ⟨Or.inr h, fun hx => hnd.1 ?_⟩
          exact hx ▸ List.mem_map_of_mem Prod.fst h
      · rintro (h | ⟨h | h, hx⟩)
        · exact Or.inl h
        · exact absurd (congrArg Prod.fst h) hx
        · exact Or.inr h
    · simp only [aset, if_neg hq, List.mem_cons, ih hnd.2]
      constructor
      · rintro (h | h | ⟨h, hx⟩)
        · subst h
          exact Or.inr ⟨Or.inl rfl, fun hh => hq hh⟩
        · exact Or.inl h
        · exact Or.inr ⟨Or.inr h, hx⟩
      · rintro (h | ⟨h | h, hx⟩)
        · exact Or.inr (Or.inl h)
        · exact Or.inl h
        · exact Or.inr (Or.inr ⟨h, hx⟩)

theorem mem_aremove_iff {l : List (Principal × Nat)} {p : Principal}
    {x : Principal × Nat} (hnd : NodupKeys l) :
    x ∈ aremove l p ↔ x ∈ l ∧ x.1 ≠ p := by
  induction l with
  | nil => simp [aremove]
  | cons hd t ih =>
    obtain ⟨q, w⟩ := hd
    unfold NodupKeys at hnd
    simp only [List.map_cons, List.nodup_cons] at hnd
    by_cases hq : q = p
    · subst hq
      simp only [aremove, if_true, eq_self_iff_true, List.mem_cons]
      constructor
      · intro h
        refine ⟨Or.inr h, fun hx => hnd.1 ?_⟩
        exact hx ▸ List.mem_map_of_mem Prod.fst h
      · rintro ⟨h | h, hx⟩
        · exact absurd (congrArg Prod.fst h) hx
        · exact h
    · simp only [aremove, if_neg hq, List.mem_cons, ih hnd.2]
      constructor
      · rintro (h | ⟨h, hx⟩)
        · subst h
          exact ⟨Or.inl rfl, fun hh => hq hh⟩
        · exact ⟨Or.inr h, hx⟩
      · rintro ⟨h | h, hx⟩
        · exact Or.inl h
        · exact Or.inr ⟨h, hx⟩

/-! ## `transfer_balance` lemmas -/

/-- Success inversion: everything a successful `transfer_balance`
implies about its branches and result. -/
theorem transfer_balance_ok_inv {b b' : Bal} {fromP toP : Principal}
    {amount : Nat} (h : transfer_balance b fromP toP amount = .ok b') :
    (amount = 0 ∧ b' = b) ∨
    (amount ≠ 0 ∧ ∃ fb,
      alookup b fromP = some fb ∧ amount ≤ fb ∧
      (alookup (aset b fromP (fb - amount)) toP).getD 0 + amount < U128 ∧
      ∃ fb2,
        alookup
          (aset (aset b fromP (fb - amount)) toP
            ((alookup (aset b fromP (fb - amount)) toP).getD 0 + amount))
          fromP = some fb2 ∧
        b' =
          (if fb2 = 0 then
            aremove
              (aset (aset b fromP (fb - amount)) toP
                ((alookup (aset b fromP (fb - amount)) toP).getD 0 +
                  amount))
              fromP
          else
            aset (aset b fromP (fb - amount)) toP
              ((alookup (aset b fromP (fb - amount)) toP).getD 0 +
                amount))) := by
  unfold transfer_balance at h
  by_cases ha : amount = 0
  · simp only [ha, if_true, eq_self_iff_true, Outcome.ok.injEq] at h
    exact Or.inl ⟨ha, h.symm⟩
  · right
    refine ⟨ha, ?_⟩
    simp only [if_neg ha] at h
    cases hfb : alookup b fromP with
    | none => simp only [hfb] at h; exact absurd h (by simp)
    | some fb =>
      simp only [hfb] at h
      refine ⟨fb, rfl, ?_⟩
      cases hsub : tsub fb amount with
      | none => simp only [hsub] at h; exact absurd h (by simp)
      | some fbv =>
        simp only [hsub] at h
        obtain ⟨hle, hfbv⟩ := tsub_eq_some.mp hsub
        subst hfbv
        refine ⟨hle, ?_⟩
        cases htb : tadd ((alookup (aset b fromP (fb - amount)) toP).getD 0)
            amount with
        | none => simp only [htb] at h; exact absurd h (by simp)
        | some tb =>
          simp only [htb] at h
          obtain ⟨hlt, htbv⟩ := tadd_eq_some.mp htb
          subst htbv
          refine ⟨hlt, ?_⟩
          cases hfb2 : alookup
              (aset (aset b fromP (fb - amount)) toP
                ((alookup (aset b fromP (fb - amount)) toP).getD 0 +
                  amount)) fromP with
          | none => simp only [hfb2] at h; exact absurd h (by simp)
          | some fb2 =>
            simp only [hfb2, Outcome.ok.injEq] at h
            exact ⟨fb2, rfl, h.symm⟩

/-- A successful `transfer_balance` preserves the total of all
balances. -/
theorem transfer_balance_asum {b b' : Bal} {fromP toP : Principal}
    {amount : Nat} (h : transfer_balance b fromP toP amount = .ok b') :
    asum b' = asum b := by
  rcases transfer_balance_ok_inv h with ⟨_, rfl⟩ | ⟨_, fb, hfb, hle, _, fb2, hfb2, hb'⟩
  · rfl
  · set b1 := aset b fromP (fb - amount) with hb1
    set tb := (alookup b1 toP).getD 0 with htb
    set b2 := aset b1 toP (tb + amount) with hb2
    have h1 : asum b1 + balance_of b fromP = asum b + (fb - amount) :=
      asum_aset b fromP (fb - amount)
    have hbf : balance_of b fromP = fb := by simp [balance_of, hfb]
    have h2 : asum b2 + balance_of b1 toP = asum b1 + (tb + amount) :=
      asum_aset b1 toP (tb + amount)
    have hb1t : balance_of b1 toP = tb := rfl
    have hsum2 : asum b2 = asum b := by omega
    rw [hb']
    by_cases hz : fb2 = 0
    · simp only [hz, if_true, eq_self_iff_true]
      have h3 : asum (aremove b2 fromP) + balance_of b2 fromP = asum b2 :=
        asum_aremove b2 fromP
      have : balance_of b2 fromP = fb2 := by simp [balance_of, hfb2]
      omega
    · simp only [if_neg hz]
      exact hsum2

/-- A successful `transfer_balance` preserves key uniqueness. -/
theorem transfer_balance_nodup {b b' : Bal} {fromP toP : Principal}
    {amount : Nat} (h : transfer_balance b fromP toP amount = .ok b')
    (hnd : NodupKeys b) : NodupKeys b' := by
  rcases transfer_balance_ok_inv h with ⟨_, rfl⟩ | ⟨_, fb, _, _, _, fb2, _, hb'⟩
  · exact hnd
  · rw [hb']
    by_cases hz : fb2 = 0
    · simp only [hz, if_true, eq_self_iff_true]
      exact nodup_aremove _ (nodup_aset _ _ (nodup_aset _ _ hnd))
    · simp only [if_neg hz]
      exact nodup_aset _ _ (nodup_aset _ _ hnd)

/-- A successful `transfer_balance` preserves zero-elision of the
balances map. -/
theorem transfer_balance_zerofree {b b' : Bal} {fromP toP : Principal}
    {amount : Nat} (h : transfer_balance b fromP toP amount = .ok b')
    (hnd : NodupKeys b) (hzf : ZeroFree b) : ZeroFree b' := by
  rcases transfer_balance_ok_inv h with ⟨_, rfl⟩ | ⟨ha, fb, hfb, hle, _, fb2, hfb2, hb'⟩
  · exact hzf
  · set b1 := aset b fromP (fb - amount) with hb1
    set tb := (alookup b1 toP).getD 0 with htbdef
    set b2 := aset b1 toP (tb + amount) with hb2
    have hnd1 : NodupKeys b1 := nodup_aset _ _ hnd
    have hnd2 : NodupKeys b2 := nodup_aset _ _ hnd1
    rw [hb']
    by_cases hz : fb2 = 0
    · simp only [hz, if_true, eq_self_iff_true]
      intro x hx
      obtain ⟨hx2, hxf⟩ := (mem_aremove_iff hnd2).mp hx
      rcases (mem_aset_iff hnd1).mp hx2 with hx1 | ⟨hx1, hxt⟩
      · rw [hx1]
        exact fun hh => ha (Nat.eq_zero_of_add_eq_zero_left hh)
      · rcases (mem_aset_iff hnd).mp hx1 with hx3 | ⟨hx3, hxf2⟩
        · exact absurd (congrArg Prod.fst hx3) hxf
        · exact hzf x hx3
    · simp only [if_neg hz]
      intro x hx
      rcases (mem_aset_iff hnd1).mp hx with hx1 | ⟨hx1, hxt⟩
      · rw [hx1]
        exact fun hh => ha (Nat.eq_zero_of_add_eq_zero_left hh)
      · rcases (mem_aset_iff hnd).mp hx1 with hx3 | ⟨hx3, hxf⟩
        · -- `x` is the overwritten source binding `(fromP, fb - amount)`;
          -- it survived the final zero check, so its value is `fb2 ≠ 0`
          rw [hx3]
          intro hzero
          apply hz
          have hft : fromP ≠ toP := by
            rw [hx3] at hxt
            exact hxt
          have hlook : alookup b2 fromP = some (fb - amount) := by
            rw [hb2, alookup_aset_ne _ _ hft, hb1, alookup_aset_self]
          rw [hlook] at hfb2
          simp only [Option.some.injEq] at hfb2
          omega
        · exact hzf x hx3

/-- With distinct endpoints, a successful `transfer_balance` debits the
source by `amount`, credits the destination by `amount`, and leaves all
other balances unchanged. -/
theorem transfer_balance_moves {b b' : Bal} {fromP toP : Principal}
    {amount : Nat} (hnd : NodupKeys b) (hft : fromP ≠ toP)
    (h : transfer_balance b fromP toP amount = .ok b') :
    balance_of b' fromP = balance_of b fromP - amount ∧
    balance_of b' toP = balance_of b toP + amount ∧
    ∀ q, q ≠ fromP → q ≠ toP → balance_of b' q = balance_of b q := by
  rcases transfer_balance_ok_inv h with ⟨ha, rfl⟩ | ⟨ha, fb, hfb, hle, _, fb2, hfb2, hb'⟩
  · subst ha; simp
  · set b1 := aset b fromP (fb - amount) with hb1
    set tb := (alookup b1 toP).getD 0 with htbdef
    set b2 := aset b1 toP (tb + amount) with hb2
    have hnd1 : NodupKeys b1 := nodup_aset _ _ hnd
    have hnd2 : NodupKeys b2 := nodup_aset _ _ hnd1
    have hbf : balance_of b fromP = fb := by simp [balance_of, hfb]
    have htb : tb = balance_of b toP := by
      rw [htbdef, hb1]
      have := balance_of_aset_ne b (q := toP) (fb - amount)
        (fun hh => hft hh.symm)
      simp only [balance_of] at this ⊢
      exact this
    have h2f : balance_of b2 fromP = fb - amount := by
      rw [hb2, balance_of_aset_ne _ _ hft, hb1, balance_of_aset_self]
    have h2t : balance_of b2 toP = balance_of b toP + amount := by
      rw [hb2, balance_of_aset_self, htb]
    have hfb2v : fb2 = fb - amount := by
      have : balance_of b2 fromP = fb2 := by simp [balance_of, hfb2]
      omega
    have h2q : ∀ q, q ≠ fromP → q ≠ toP →
        balance_of b2 q = balance_of b q := by
      intro q hqf hqt
      rw [hb2, balance_of_aset_ne _ _ hqt, hb1, balance_of_aset_ne _ _ hqf]
    rw [hb']
    by_cases hz : fb2 = 0
    · simp only [hz, if_true, eq_self_iff_true]
      refine ⟨?_, ?_, ?_⟩
      · rw [balance_of_aremove_self _ hnd2]; omega
      · rw [balance_of_aremove_ne _ (fun hh => hft hh.symm)]; exact h2t
      · intro q hqf hqt
        rw [balance_of_aremove_ne _ hqf]
        exact h2q q hqf hqt
    · simp only [if_neg hz]
      exact ⟨by omega, h2t, h2q⟩

/-- `transfer_balance` always succeeds when the source balance covers
the amount and the map total stays below `2 ^ 128` (so the destination
credit cannot overflow). -/
theorem transfer_balance_total {b : Bal} {fromP toP : Principal}
    {amount : Nat} (hsup : asum b < U128)
    (hle : amount ≤ balance_of b fromP) :
    ∃ b', transfer_balance b fromP toP amount = .ok b' := by
  unfold transfer_balance
  by_cases ha : amount = 0
  · exact ⟨b, by simp [ha]⟩
  · have hpos : 0 < balance_of b fromP := by omega
    have hfb := alookup_of_balance_pos hpos
    simp only [if_neg ha, hfb]
    have hsub : tsub (balance_of b fromP) amount =
        some (balance_of b fromP - amount) := tsub_eq_some.mpr ⟨hle, rfl⟩
    simp only [hsub]
    set b1 := aset b fromP (balance_of b fromP - amount) with hb1
    set tb := (alookup b1 toP).getD 0 with htbdef
    have hb1sum : asum b1 + balance_of b fromP =
        asum b + (balance_of b fromP - amount) := asum_aset _ _ _
    have htble : tb ≤ asum b1 := by
      rw [htbdef]
      have := balance_of_le_asum b1 toP
      simpa [balance_of] using this
    have hov : tb + amount < U128 := by omega
    have htadd : tadd tb amount = some (tb + amount) :=
      tadd_eq_some.mpr ⟨hov, rfl⟩
    simp only [htadd]
    set b2 := aset b1 toP (tb + amount) with hb2
    have hlook : ∃ fb2, alookup b2 fromP = some fb2 := by
      by_cases hft : toP = fromP
      · exact ⟨tb + amount, by rw [hb2, hft, alookup_aset_self]⟩
      · refine ⟨balance_of b fromP - amount, ?_⟩
        rw [hb2, alookup_aset_ne _ _ (fun hh => hft hh.symm), hb1,
          alookup_aset_self]
    obtain ⟨fb2, hfb2⟩ := hlook
    simp only [hfb2]
    exact ⟨_, rfl⟩

/-- A successful nonzero `transfer_balance` implies the source balance
covered the amount. -/
theorem transfer_balance_suff {b b' : Bal} {fromP toP : Principal}
    {amount : Nat} (h : transfer_balance b fromP toP amount = .ok b')
    (ha : amount ≠ 0) : amount ≤ balance_of b fromP := by
  rcases transfer_balance_ok_inv h with ⟨ha0, _⟩ | ⟨_, fb, hfb, hle, _⟩
  · exact absurd ha0 ha
  · have : balance_of b fromP = fb := by simp [balance_of, hfb]
    omega

/-! ## `charge_fee` lemmas -/

/-- Success inversion for `charge_fee`: a nonzero fee splits into the
two `transfer_balance` calls on the truncated auction part. -/
theorem charge_fee_ok_inv {b b' : Bal} {user fee_to : Principal}
    {fee k : Nat} (h : charge_fee b user fee_to fee k = .ok b') :
    (fee = 0 ∧ b' = b) ∨
    (fee ≠ 0 ∧
      fee * k / INT_CONVERSION_K < U128 ∧
      fee * k / INT_CONVERSION_K ≤ fee ∧
      ∃ b1,
        transfer_balance b user fee_to (fee - fee * k / INT_CONVERSION_K) =
          .ok b1 ∧
        transfer_balance b1 user auction_principal
          (fee * k / INT_CONVERSION_K) = .ok b') := by
  unfold charge_fee at h
  by_cases hf : fee = 0
  · simp only [hf, if_true, eq_self_iff_true, Outcome.ok.injEq] at h
    exact Or.inl ⟨hf, h.symm⟩
  · right
    refine ⟨hf, ?_⟩
    simp only [if_neg hf] at h
    by_cases hu : U128 ≤ fee * k / INT_CONVERSION_K
    · simp only [if_pos hu] at h
      exact absurd h (by simp)
    · simp only [if_neg hu] at h
      refine ⟨by omega, ?_⟩
      cases hsub : tsub fee (fee * k / INT_CONVERSION_K) with
      | none =>
        simp only [hsub] at h
        exact absurd h (by simp)
      | some owner_fee =>
        simp only [hsub] at h
        obtain ⟨hle, howner⟩ := tsub_eq_some.mp hsub
        refine ⟨hle, ?_⟩
        cases h1 : transfer_balance b user fee_to
            (fee - fee * k / INT_CONVERSION_K) with
        | ok b1 =>
          subst howner
          simp only [h1] at h
          cases h2 : transfer_balance b1 user auction_principal
              (fee * k / INT_CONVERSION_K) with
          | ok b2 =>
            simp only [h2, Outcome.ok.injEq] at h
            exact ⟨b1, rfl, h ▸ h2⟩
          | err e => simp only [h2] at h; exact absurd h (by simp)
          | trap => simp only [h2] at h; exact absurd h (by simp)
        | err e =>
          subst howner
          simp only [h1] at h
          exact absurd h (by simp)
        | trap =>
          subst howner
          simp only [h1] at h
          exact absurd h (by simp)

/-- A successful `charge_fee` preserves the total of all balances. -/
theorem charge_fee_asum {b b' : Bal} {user fee_to : Principal}
    {fee k : Nat} (h : charge_fee b user fee_to fee k = .ok b') :
    asum b' = asum b := by
  rcases charge_fee_ok_inv h with ⟨_, rfl⟩ | ⟨_, _, _, b1, h1, h2⟩
  · rfl
  · rw [transfer_balance_asum h2, transfer_balance_asum h1]

/-- A successful `charge_fee` preserves key uniqueness. -/
theorem charge_fee_nodup {b b' : Bal} {user fee_to : Principal}
    {fee k : Nat} (h : charge_fee b user fee_to fee k = .ok b')
    (hnd : NodupKeys b) : NodupKeys b' := by
  rcases charge_fee_ok_inv h with ⟨_, rfl⟩ | ⟨_, _, _, b1, h1, h2⟩
  · exact hnd
  · exact transfer_balance_nodup h2 (transfer_balance_nodup h1 hnd)

/-- A successful `charge_fee` preserves zero-elision. -/
theorem charge_fee_zerofree {b b' : Bal} {user fee_to : Principal}
    {fee k : Nat} (h : charge_fee b user fee_to fee k = .ok b')
    (hnd : NodupKeys b) (hzf : ZeroFree b) : ZeroFree b' := by
  rcases charge_fee_ok_inv h with ⟨_, rfl⟩ | ⟨_, _, _, b1, h1, h2⟩
  · exact hzf
  · exact transfer_balance_zerofree h2 (transfer_balance_nodup h1 hnd)
      (transfer_balance_zerofree h1 hnd hzf)

/-- With the payer, the fee recipient and the auction principal pairwise
distinct, a successful `charge_fee` debits the payer by the whole fee,
credits the auction principal with the truncated auction part
`fee * k / 10^12`, credits `fee_to` with the remainder, and leaves all
other balances unchanged. -/
theorem charge_fee_moves {b b' : Bal} {user fee_to : Principal}
    {fee k : Nat} (hnd : NodupKeys b)
    (huf : user ≠ fee_to) (hua : user ≠ auction_principal)
    (hfa : fee_to ≠ auction_principal)
    (h : charge_fee b user fee_to fee k = .ok b') :
    balance_of b' user = balance_of b user - fee ∧
    balance_of b' auction_principal =
      balance_of b auction_principal + fee * k / INT_CONVERSION_K ∧
    balance_of b' fee_to =
      balance_of b fee_to + (fee - fee * k / INT_CONVERSION_K) ∧
    (fee ≠ 0 → fee ≤ balance_of b user) ∧
    ∀ q, q ≠ user → q ≠ fee_to → q ≠ auction_principal →
      balance_of b' q = balance_of b q := by
  rcases charge_fee_ok_inv h with ⟨hf, rfl⟩ | ⟨hf, _, hak, b1, h1, h2⟩
  · subst hf; simp
  · have hnd1 : NodupKeys b1 := transfer_balance_nodup h1 hnd
    obtain ⟨m1u, m1f, m1o⟩ := transfer_balance_moves hnd huf h1
    obtain ⟨m2u, m2a, m2o⟩ := transfer_balance_moves hnd1 hua h2
    set ap := fee * k / INT_CONVERSION_K with hap
    -- the payer could cover the whole fee
    have hsuff : fee ≤ balance_of b user := by
      by_cases hz1 : fee - ap = 0
      · have hzap : ap ≠ 0 := by omega
        have := transfer_balance_suff h2 hzap
        rw [m1u] at this
        omega
      · have hcov1 := transfer_balance_suff h1 hz1
        by_cases hz2 : ap = 0
        · omega
        · have hcov2 := transfer_balance_suff h2 hz2
          rw [m1u] at hcov2
          omega
    refine ⟨?_, ?_, ?_, fun _ => hsuff, ?_⟩
    · rw [m2u, m1u]; omega
    · rw [m2a, m1o auction_principal (fun hh => hua hh.symm)
        (fun hh => hfa hh.symm)]
    · rw [m2o fee_to (fun hh => huf hh.symm) hfa, m1f]
    · intro q hqu hqf hqa
      rw [m2o q hqu hqa, m1o q hqu hqf]

/-- The payer-side effect of `charge_fee`, needing no assumption on
whether `fee_to` and the auction principal coincide: the payer is
debited exactly `fee`, and any principal distinct from payer, `fee_to`
and the auction principal is untouched. -/
theorem charge_fee_debit {b b' : Bal} {user fee_to : Principal}
    {fee k : Nat} (hnd : NodupKeys b)
    (huf : user ≠ fee_to) (hua : user ≠ auction_principal)
    (h : charge_fee b user fee_to fee k = .ok b') :
    balance_of b' user = balance_of b user - fee ∧
    ∀ q, q ≠ user → q ≠ fee_to → q ≠ auction_principal →
      balance_of b' q = balance_of b q := by
  rcases charge_fee_ok_inv h with ⟨hf, rfl⟩ | ⟨hf, _, hak, b1, h1, h2⟩
  · subst hf; simp
  · have hnd1 : NodupKeys b1 := transfer_balance_nodup h1 hnd
    obtain ⟨m1u, _, m1o⟩ := transfer_balance_moves hnd huf h1
    obtain ⟨m2u, _, m2o⟩ := transfer_balance_moves hnd1 hua h2
    constructor
    · rw [m2u, m1u]; omega
    · intro q hqu hqf hqa
      rw [m2o q hqu hqa, m1o q hqu hqf]

/-- `charge_fee` always succeeds when `k ≤ 10^12` (the integer image of
a fee ratio within `[0, 1]`), the payer covers the fee, and the map
total stays below `2 ^ 128`. -/
theorem charge_fee_total {b : Bal} {user fee_to : Principal} {fee k : Nat}
    (hnd : NodupKeys b) (hk : k ≤ INT_CONVERSION_K) (hsup : asum b < U128)
    (hfee : fee ≤ balance_of b user)
    (huf : user ≠ fee_to) :
    ∃ b', charge_fee b user fee_to fee k = .ok b' := by
  unfold charge_fee
  by_cases hf : fee = 0
  · exact ⟨b, by simp [hf]⟩
  · simp only [if_neg hf]
    set ap := fee * k / INT_CONVERSION_K with hap
    have hkpos : 0 < INT_CONVERSION_K := by norm_num [INT_CONVERSION_K]
    have haple : ap ≤ fee := by
      rw [hap]
      calc fee * k / INT_CONVERSION_K
          ≤ fee * INT_CONVERSION_K / INT_CONVERSION_K :=
            Nat.div_le_div_right (Nat.mul_le_mul_left _ hk)
        _ = fee := Nat.mul_div_cancel fee hkpos
    have hflt : fee < U128 := by
      have := balance_of_le_asum b user
      omega
    have hu : ¬U128 ≤ ap := by omega
    simp only [if_neg hu]
    have hsub : tsub fee ap = some (fee - ap) := tsub_eq_some.mpr ⟨haple, rfl⟩
    simp only [hsub]
    obtain ⟨b1, h1⟩ := @transfer_balance_total b user fee_to (fee - ap) hsup
      (le_trans (Nat.sub_le fee ap) hfee)
    simp only [h1]
    have hsup1 : asum b1 < U128 := by rw [transfer_balance_asum h1]; exact hsup
    obtain ⟨m1u, _, _⟩ := transfer_balance_moves hnd huf h1
    have hbal1 : ap ≤ balance_of b1 user := by rw [m1u]; omega
    obtain ⟨b2, h2⟩ := @transfer_balance_total b1 user auction_principal ap
      hsup1 hbal1
    simp only [h2]
    exact ⟨b2, rfl⟩

/-! ## Shape of each operation's post state

For the state invariants we only need to know, for every operation,
either that the state is unchanged or which balance/allowance/ledger
writes the successful (or partially failed) run performed. -/

theorem transfer_snd_cases (s : CanisterState) (caller toP : Principal)
    (amount : Nat) (fee_limit : Option Nat) (k now : Nat) :
    (transfer s caller toP amount fee_limit k now).2 = s ∨
    ∃ b1 b2,
      charge_fee s.balances caller s.stats.fee_to s.stats.fee k = .ok b1 ∧
      transfer_balance b1 caller toP amount = .ok b2 ∧
      (transfer s caller toP amount fee_limit k now).2 =
        { s with balances := b2
                 ledger := s.ledger.transfer now caller toP amount
                   s.stats.fee } := by
  simp only [transfer]
  split
  · exact Or.inl rfl
  · split
    · exact Or.inl rfl
    · split
      · exact Or.inl rfl
      · split
        · next b1 hcf =>
          split
          · next b2 htb => exact Or.inr ⟨b1, b2, hcf, htb, rfl⟩
          · exact Or.inl rfl
        · exact Or.inl rfl

theorem transfer_from_snd_cases (s : CanisterState)
    (caller fromP toP : Principal) (amount k now : Nat) :
    (transfer_from s caller fromP toP amount k now).2 = s ∨
    ∃ vwf b1 b2 inner av a2,
      tadd amount s.stats.fee = some vwf ∧
      charge_fee s.balances fromP s.stats.fee_to s.stats.fee k = .ok b1 ∧
      transfer_balance b1 fromP toP amount = .ok b2 ∧
      alookup s.allowances fromP = some inner ∧
      alookup inner caller = some av ∧
      tsub av vwf = some a2 ∧
      (transfer_from s caller fromP toP amount k now).2 =
        { s with balances := b2
                 allowances :=
                   (if a2 = 0 then
                     (if aremove (aset inner caller a2) caller = [] then
                       aremove s.allowances fromP
                     else
                       aset s.allowances fromP
                         (aremove (aset inner caller a2) caller))
                   else aset s.allowances fromP (aset inner caller a2))
                 ledger := s.ledger.transfer_from now caller fromP toP
                   amount s.stats.fee } := by
  simp only [transfer_from]
  split
  · exact Or.inl rfl
  · next vwf hvwf =>
    split
    · exact Or.inl rfl
    · split
      · exact Or.inl rfl
      · split
        · next b1 hcf =>
          split
          · next b2 htb =>
            split
            · exact Or.inl rfl
            · next inner hinner =>
              split
              · exact Or.inl rfl
              · next av hav =>
                split
                · exact Or.inl rfl
                · next a2 ha2 =>
                  exact Or.inr ⟨vwf, b1, b2, inner, av, a2, hvwf, hcf,
                    htb, hinner, hav, ha2, rfl⟩
          · exact Or.inl rfl
        · exact Or.inl rfl

theorem approve_snd_cases (s : CanisterState) (caller spender : Principal)
    (amount k now : Nat) :
    (approve s caller spender amount k now).2 = s ∨
    ∃ b1,
      charge_fee s.balances caller s.stats.fee_to s.stats.fee k = .ok b1 ∧
      ((approve s caller spender amount k now).2 =
          { s with balances := b1 } ∨
        ∃ awf,
          tadd amount s.stats.fee = some awf ∧
          (approve s caller spender amount k now).2 =
            { s with balances := b1
                     allowances :=
                       (if awf = 0 then
                         (match alookup s.allowances caller with
                          | some inner =>
                            (if aremove inner spender = [] then
                              aremove s.allowances caller
                            else
                              aset s.allowances caller
                                (aremove inner spender))
                          | none => s.allowances)
                       else
                         aset s.allowances caller
                           (aset ((alookup s.allowances caller).getD [])
                             spender awf))
                     ledger := s.ledger.approve now caller spender amount
                       s.stats.fee }) := by
  simp only [approve]
  split
  · exact Or.inl rfl
  · split
    · next b1 hcf =>
      split
      · exact Or.inr ⟨b1, hcf, Or.inl rfl⟩
      · next awf hawf =>
        exact Or.inr ⟨b1, hcf, Or.inr ⟨awf, hawf, rfl⟩⟩
    · exact Or.inl rfl

theorem mint_snd_cases (s : CanisterState) (caller toP : Principal)
    (amount now : Nat) :
    (mint s caller toP amount now).2 = s ∨
    ∃ supply nb,
      tadd s.stats.total_supply amount = some supply ∧
      tadd ((alookup s.balances toP).getD 0) amount = some nb ∧
      (mint s caller toP amount now).2 =
        { s with stats := { s.stats with total_supply := supply }
                 balances := aset s.balances toP nb
                 ledger := s.ledger.mint now caller toP amount } := by
  simp only [mint]
  split
  · exact Or.inl rfl
  · next supply hsupply =>
    split
    · exact Or.inl rfl
    · next nb hnb =>
      exact Or.inr ⟨supply, nb, hsupply, hnb, rfl⟩

theorem burn_snd_cases (s : CanisterState) (caller fromP : Principal)
    (amount now : Nat) :
    (burn s caller fromP amount now).2 = s ∨
    ∃ balances supply,
      tsub s.stats.total_supply amount = some supply ∧
      ((∃ bal b2,
          alookup s.balances fromP = some bal ∧
          tsub bal amount = some b2 ∧
          balances =
            (if b2 = 0 then aremove (aset s.balances fromP b2) fromP
             else aset s.balances fromP b2)) ∨
        (alookup s.balances fromP = none ∧ amount = 0 ∧
          balances = s.balances)) ∧
      (burn s caller fromP amount now).2 =
        { s with balances := balances
                 stats := { s.stats with total_supply := supply }
                 ledger := s.ledger.burn now caller fromP amount } := by
  simp only [burn]
  split
  · exact Or.inl rfl
  · exact Or.inl rfl
  · next balances heq =>
    split
    · exact Or.inl rfl
    · next supply hsup =>
      refine Or.inr ⟨balances, supply, hsup, ?_, rfl⟩
      cases hlook : alookup s.balances fromP with
      | some bal =>
        simp only [hlook] at heq
        cases hsub : tsub bal amount with
        | none => simp only [hsub] at heq; exact absurd heq (by simp)
        | some b2 =>
          simp only [hsub, Outcome.ok.injEq] at heq
          exact Or.inl ⟨bal, b2, rfl, hsub, heq.symm⟩
      | none =>
        simp only [hlook] at heq
        by_cases ha : amount = 0
        · rw [if_neg (show ¬(amount ≠ 0) by simp [ha])] at heq
          simp only [Outcome.ok.injEq] at heq
          exact Or.inr ⟨rfl, ha, heq.symm⟩
        · rw [if_pos ha] at heq
          exact absurd heq (by simp)

theorem disburse_snd_cases (s : CanisterState)
    (bids : List (Principal × Nat)) (total_cycles history_len k now : Nat) :
    (disburse_rewards s bids total_cycles history_len k now).2 = s ∨
    ∃ b l transferred,
      disburse_loop (accumulated_fees s.balances) total_cycles now bids
        s.balances s.ledger 0 = .ok (b, l, transferred) ∧
      (disburse_rewards s bids total_cycles history_len k now).2 =
        { s with balances := b, ledger := l } := by
  simp only [disburse_rewards]
  split
  · next b l transferred hloop =>
    exact Or.inr ⟨b, l, transferred, hloop, rfl⟩
  · exact Or.inl rfl

/-- The auction disbursement loop preserves the balance total, key
uniqueness and zero-elision. -/
theorem disburse_loop_preserves {total_amount total_cycles now : Nat} :
    ∀ (bids : List (Principal × Nat)) (b : Bal) (l : Ledger) (tr : Nat)
      {b' : Bal} {l' : Ledger} {tr' : Nat},
      disburse_loop total_amount total_cycles now bids b l tr =
        .ok (b', l', tr') →
      asum b' = asum b ∧ (NodupKeys b → NodupKeys b') ∧
      (NodupKeys b → ZeroFree b → ZeroFree b') := by
  intro bids
  induction bids with
  | nil =>
    intro b l tr b' l' tr' h
    simp only [disburse_loop, Outcome.ok.injEq, Prod.mk.injEq] at h
    obtain ⟨h1, _, _⟩ := h
    subst h1
    exact ⟨rfl, id, fun _ => id⟩
  | cons hd rest ih =>
    intro b l tr b' l' tr' h
    obtain ⟨bidder, cycles⟩ := hd
    simp only [disburse_loop] at h
    split at h
    · exact absurd h (by simp)
    · split at h
      · exact absurd h (by simp)
      · cases htb : transfer_balance b auction_principal bidder
            (total_amount * cycles / total_cycles) with
        | ok b1 =>
          simp only [htb] at h
          cases htr : tadd tr (total_amount * cycles / total_cycles) with
          | none => simp only [htr] at h; exact absurd h (by simp)
          | some tr1 =>
            simp only [htr] at h
            obtain ⟨ha, hn, hz⟩ := ih b1 _ tr1 h
            refine ⟨?_, ?_, ?_⟩
            · rw [ha, transfer_balance_asum htb]
            · intro hnd
              exact hn (transfer_balance_nodup htb hnd)
            · intro hnd hzf
              exact hz (transfer_balance_nodup htb hnd)
                (transfer_balance_zerofree htb hnd hzf)
        | err e => simp only [htb] at h; exact absurd h (by simp)
        | trap => simp only [htb] at h; exact absurd h (by simp)

/-! ## Claim C1: supply conservation -/

/-- C1: for every state reachable from init, the sum of all balances in
the `Balances` map equals `stats.total_supply`; since `Reachable` is by
construction closed under every mutating operation (`transfer`,
`transfer_from`, `approve`, `mint`, `burn`, auction disbursement —
including their error returns, which keep whatever partial mutation the
source performed), this is exactly the statement that every mutating
operation preserves the equality. -/
theorem supply_conservation (md : Metadata) (now0 : Nat)
    (s : CanisterState) (h : Reachable md now0 s) :
    asum s.balances = s.stats.total_supply := by
  induction h with
  | init =>
    simp [initState, asum, aset, StatsData.ofMetadata]
  | @transfer s0 caller toP amount fee_limit k now hr ih =>
    rcases transfer_snd_cases _ caller toP amount fee_limit k now with
      heq | ⟨b1, b2, hcf, htb, heq⟩
    · rw [heq]; exact ih
    · rw [heq]
      simp only
      rw [transfer_balance_asum htb, charge_fee_asum hcf]
      exact ih
  | @transfer_from s0 caller fromP toP amount k now hr ih =>
    rcases transfer_from_snd_cases _ caller fromP toP amount k now with
      heq | ⟨vwf, b1, b2, inner, av, a2, _, hcf, htb, _, _, _, heq⟩
    · rw [heq]; exact ih
    · rw [heq]
      simp only
      rw [transfer_balance_asum htb, charge_fee_asum hcf]
      exact ih
  | @approve s0 caller spender amount k now hr ih =>
    rcases approve_snd_cases _ caller spender amount k now with
      heq | ⟨b1, hcf, heq | ⟨awf, _, heq⟩⟩
    · rw [heq]; exact ih
    · rw [heq]
      simp only
      rw [charge_fee_asum hcf]
      exact ih
    · rw [heq]
      simp only
      rw [charge_fee_asum hcf]
      exact ih
  | @mint s0 caller toP amount now hr ih =>
    rcases mint_snd_cases _ caller toP amount now with
      heq | ⟨supply, nb, hsupply, hnb, heq⟩
    · rw [heq]; exact ih
    · rw [heq]
      simp only
      obtain ⟨_, hs⟩ := tadd_eq_some.mp hsupply
      obtain ⟨_, hn⟩ := tadd_eq_some.mp hnb
      have := asum_aset s0.balances toP nb
      simp only [balance_of] at this
      omega
  | @burn s0 caller fromP amount now hr ih =>
    rcases burn_snd_cases _ caller fromP amount now with
      heq | ⟨balances, supply, hsup, hbal, heq⟩
    · rw [heq]; exact ih
    · rw [heq]
      simp only
      obtain ⟨hle, hs⟩ := tsub_eq_some.mp hsup
      rcases hbal with ⟨bal, b2, hlook, hsub, hb⟩ | ⟨hlook, ha, hb⟩
      · obtain ⟨hle2, hb2⟩ := tsub_eq_some.mp hsub
        have hbo : balance_of s0.balances fromP = bal := by
          simp [balance_of, hlook]
        have h1 := asum_aset s0.balances fromP b2
        subst hb
        by_cases hz : b2 = 0
        · simp only [hz, if_true, eq_self_iff_true]
          have h2 := asum_aremove (aset s0.balances fromP 0) fromP
          have h3 : balance_of (aset s0.balances fromP 0) fromP = 0 :=
            balance_of_aset_self _ _ _
          rw [hz] at h1
          omega
        · simp only [if_neg hz]
          omega
      · subst hb
        omega
  | @disburse s0 bids total_cycles history_len k now hr ih =>
    rcases disburse_snd_cases _ bids total_cycles history_len k now with
      heq | ⟨b, l, transferred, hloop, heq⟩
    · rw [heq]; exact ih
    · rw [heq]
      simp only
      obtain ⟨ha, _, _⟩ := disburse_loop_preserves bids _ _ 0 hloop
      rw [ha]
      exact ih

/-! ## Claim C4: zero-elision proofs -/

theorem aset_ne_nil {α β : Type} [DecidableEq α] (l : List (α × β))
    (p : α) (v : β) : aset l p v ≠ [] := by
  cases l with
  | nil => simp [aset]
  | cons hd t =>
    obtain ⟨q, w⟩ := hd
    by_cases hq : q = p <;> simp [aset, hq]

/-- Inner allowance-map update used by `transfer_from` and `approve`
(remove one spender, prune) preserves the invariants. -/
theorem allow_update_wf {al : Allow} {owner : Principal} {inner2 : Bal}
    (hnd : NodupKeys al) (hin : ∀ x ∈ al, NodupKeys x.2)
    (hne : ∀ x ∈ al, x.2 ≠ []) (hzf : ∀ x ∈ al, ∀ y ∈ x.2, y.2 ≠ 0)
    (hinner2 : ∀ y ∈ inner2, y.2 ≠ 0) (hinner2nd : NodupKeys inner2)
    (hinner2ne : inner2 ≠ []) :
    NodupKeys (aset al owner inner2) ∧
    (∀ x ∈ aset al owner inner2, NodupKeys x.2) ∧
    (∀ x ∈ aset al owner inner2, x.2 ≠ []) ∧
    (∀ x ∈ aset al owner inner2, ∀ y ∈ x.2, y.2 ≠ 0) := by
  refine ⟨nodup_aset _ _ hnd, ?_, ?_, ?_⟩
  · intro x hx
    rcases mem_aset_cases hx with hx | hx
    · rw [hx]; exact hinner2nd
    · exact hin x hx
  · intro x hx
    rcases mem_aset_cases hx with hx | hx
    · rw [hx]; exact hinner2ne
    · exact hne x hx
  · intro x hx
    rcases mem_aset_cases hx with hx | hx
    · rw [hx]; exact hinner2
    · exact hzf x hx

/-- Removing one owner from the outer allowance map preserves the
invariants. -/
theorem allow_remove_wf {al : Allow} {owner : Principal}
    (hnd : NodupKeys al) (hin : ∀ x ∈ al, NodupKeys x.2)
    (hne : ∀ x ∈ al, x.2 ≠ []) (hzf : ∀ x ∈ al, ∀ y ∈ x.2, y.2 ≠ 0) :
    NodupKeys (aremove al owner) ∧
    (∀ x ∈ aremove al owner, NodupKeys x.2) ∧
    (∀ x ∈ aremove al owner, x.2 ≠ []) ∧
    (∀ x ∈ aremove al owner, ∀ y ∈ x.2, y.2 ≠ 0) :=
  ⟨nodup_aremove _ hnd,
    fun x hx => hin x (mem_aremove_subset hx),
    fun x hx => hne x (mem_aremove_subset hx),
    fun x hx => hzf x (mem_aremove_subset hx)⟩

/-- The strengthened invariant holds in every state reachable without
degenerate zero mints, provided the initial supply is nonzero. -/
theorem state_wf_invariant (md : Metadata) (now0 : Nat)
    (hmd : md.totalSupply ≠ 0) (s : CanisterState)
    (h : GoodReachable md now0 s) : StateWF s := by
  induction h with
  | init =>
    refine ⟨?_, ?_, ?_, ?_, ?_, ?_⟩ <;>
      simp [initState, NodupKeys, aset, ZeroFree, hmd]
  | @transfer s0 caller toP amount fee_limit k now hr ih =>
    have ihw := ih
    unfold StateWF ZeroElision at ihw
    obtain ⟨hbn, han, hain, hbz, hane, haz⟩ := ihw
    rcases transfer_snd_cases s0 caller toP amount fee_limit k now with
      heq | ⟨b1, b2, hcf, htb, heq⟩
    · rw [heq]; exact ih
    · rw [heq]
      have hnd1 := charge_fee_nodup hcf hbn
      have hzf1 := charge_fee_zerofree hcf hbn hbz
      exact ⟨transfer_balance_nodup htb hnd1, han, hain,
        transfer_balance_zerofree htb hnd1 hzf1, hane, haz⟩
  | @transfer_from s0 caller fromP toP amount k now hr ih =>
    have ihw := ih
    unfold StateWF ZeroElision at ihw
    obtain ⟨hbn, han, hain, hbz, hane, haz⟩ := ihw
    rcases transfer_from_snd_cases s0 caller fromP toP amount k now with
      heq | ⟨vwf, b1, b2, inner, av, a2, hvwf, hcf, htb, hinner, hav, ha2,
        heq⟩
    · rw [heq]; exact ih
    · rw [heq]
      have hnd1 := charge_fee_nodup hcf hbn
      have hzf1 := charge_fee_zerofree hcf hbn hbz
      have hbn2 := transfer_balance_nodup htb hnd1
      have hbz2 := transfer_balance_zerofree htb hnd1 hzf1
      have hinmem := mem_of_alookup_eq_some hinner
      have hinnd : NodupKeys inner := hain _ hinmem
      have hinzf : ∀ y ∈ inner, y.2 ≠ 0 := haz _ hinmem
      by_cases hz : a2 = 0
      · simp only [hz, if_true, eq_self_iff_true]
        set inner2 := aremove (aset inner caller 0) caller with hi2
        have hinner2nd : NodupKeys inner2 :=
          nodup_aremove _ (nodup_aset _ _ hinnd)
        have hinner2zf : ∀ y ∈ inner2, y.2 ≠ 0 := by
          intro y hy
          obtain ⟨hy1, hy2⟩ := (mem_aremove_iff (nodup_aset _ _ hinnd)).mp hy
          rcases (mem_aset_iff hinnd).mp hy1 with hy3 | ⟨hy3, _⟩
          · exact absurd (congrArg Prod.fst hy3) hy2
          · exact hinzf y hy3
        by_cases hnil : inner2 = []
        · rw [if_pos hnil]
          obtain ⟨w1, w2, w3, w4⟩ := allow_remove_wf han hain hane haz
          exact ⟨hbn2, w1, w2, hbz2, w3, w4⟩
        · rw [if_neg hnil]
          obtain ⟨w1, w2, w3, w4⟩ := allow_update_wf han hain hane haz
            hinner2zf hinner2nd hnil
          exact ⟨hbn2, w1, w2, hbz2, w3, w4⟩
      · simp only [if_neg hz]
        have hinnerzf : ∀ y ∈ aset inner caller a2, y.2 ≠ 0 := by
          intro y hy
          rcases (mem_aset_iff hinnd).mp hy with hy | ⟨hy, _⟩
          · rw [hy]; exact hz
          · exact hinzf y hy
        obtain ⟨w1, w2, w3, w4⟩ := allow_update_wf han hain hane haz
          hinnerzf (nodup_aset _ _ hinnd) (aset_ne_nil _ _ _)
        exact ⟨hbn2, w1, w2, hbz2, w3, w4⟩
  | @approve s0 caller spender amount k now hr ih =>
    have ihw := ih
    unfold StateWF ZeroElision at ihw
    obtain ⟨hbn, han, hain, hbz, hane, haz⟩ := ihw
    rcases approve_snd_cases s0 caller spender amount k now with
      heq | ⟨b1, hcf, heq | ⟨awf, hawf, heq⟩⟩
    · rw [heq]; exact ih
    · rw [heq]
      exact ⟨charge_fee_nodup hcf hbn, han, hain,
        charge_fee_zerofree hcf hbn hbz, hane, haz⟩
    · rw [heq]
      have hbn1 := charge_fee_nodup hcf hbn
      have hbz1 := charge_fee_zerofree hcf hbn hbz
      by_cases hz : awf = 0
      · simp only [hz, if_true, eq_self_iff_true]
        cases hinner : alookup s0.allowances caller with
        | none =>
          dsimp only
          exact ⟨hbn1, han, hain, hbz1, hane, haz⟩
        | some inner =>
          dsimp only
          have hinmem := mem_of_alookup_eq_some hinner
          have hinnd : NodupKeys inner := hain _ hinmem
          have hinzf : ∀ y ∈ inner, y.2 ≠ 0 := haz _ hinmem
          by_cases hnil : aremove inner spender = []
          · rw [if_pos hnil]
            obtain ⟨w1, w2, w3, w4⟩ := allow_remove_wf han hain hane haz
            exact ⟨hbn1, w1, w2, hbz1, w3, w4⟩
          · rw [if_neg hnil]
            obtain ⟨w1, w2, w3, w4⟩ := allow_update_wf han hain hane haz
              (fun y hy => hinzf y (mem_aremove_subset hy))
              (nodup_aremove _ hinnd) hnil
            exact ⟨hbn1, w1, w2, hbz1, w3, w4⟩
      · simp only [if_neg hz]
        set base := (alookup s0.allowances caller).getD [] with hbase
        have hbasend : NodupKeys base := by
          rw [hbase]
          cases hbl : alookup s0.allowances caller with
          | none => simp [NodupKeys]
          | some inner =>
            simpa using hain _ (mem_of_alookup_eq_some hbl)
        have hbasezf : ∀ y ∈ base, y.2 ≠ 0 := by
          rw [hbase]
          cases hbl : alookup s0.allowances caller with
          | none => simp
          | some inner =>
            simpa using haz _ (mem_of_alookup_eq_some hbl)
        have hnewzf : ∀ y ∈ aset base spender awf, y.2 ≠ 0 := by
          intro y hy
          rcases (mem_aset_iff hbasend).mp hy with hy | ⟨hy, _⟩
          · rw [hy]; exact hz
          · exact hbasezf y hy
        obtain ⟨w1, w2, w3, w4⟩ := allow_update_wf han hain hane haz
          hnewzf (nodup_aset _ _ hbasend) (aset_ne_nil _ _ _)
        exact ⟨hbn1, w1, w2, hbz1, w3, w4⟩
  | @mint s0 caller toP amount now hgood hr ih =>
    have ihw := ih
    unfold StateWF ZeroElision at ihw
    obtain ⟨hbn, han, hain, hbz, hane, haz⟩ := ihw
    rcases mint_snd_cases s0 caller toP amount now with
      heq | ⟨supply, nb, hsupply, hnb, heq⟩
    · rw [heq]; exact ih
    · rw [heq]
      obtain ⟨_, hn⟩ := tadd_eq_some.mp hnb
      have hnbne : nb ≠ 0 := by
        rcases hgood with hgood | hgood
        · omega
        · cases hbl : alookup s0.balances toP with
          | none => exact absurd hbl hgood
          | some v =>
            have hv : v ≠ 0 := hbz _ (mem_of_alookup_eq_some hbl)
            rw [hbl] at hn
            simp only [Option.getD_some] at hn
            omega
      refine ⟨nodup_aset _ _ hbn, han, hain, ?_, hane, haz⟩
      intro x hx
      rcases (mem_aset_iff hbn).mp hx with hx | ⟨hx, _⟩
      · rw [hx]; exact hnbne
      · exact hbz x hx
  | @burn s0 caller fromP amount now hr ih =>
    have ihw := ih
    unfold StateWF ZeroElision at ihw
    obtain ⟨hbn, han, hain, hbz, hane, haz⟩ := ihw
    rcases burn_snd_cases s0 caller fromP amount now with
      heq | ⟨balances, supply, hsup, hbal, heq⟩
    · rw [heq]; exact ih
    · rw [heq]
      rcases hbal with ⟨bal, b2, hlook, hsub, hb⟩ | ⟨_, _, hb⟩
      · subst hb
        by_cases hz : b2 = 0
        · simp only [hz, if_true, eq_self_iff_true]
          refine ⟨nodup_aremove _ (nodup_aset _ _ hbn), han, hain, ?_,
            hane, haz⟩
          intro x hx
          obtain ⟨hx1, hx2⟩ :=
            (mem_aremove_iff (nodup_aset _ _ hbn)).mp hx
          rcases (mem_aset_iff hbn).mp hx1 with hx3 | ⟨hx3, _⟩
          · exact absurd (congrArg Prod.fst hx3) hx2
          · exact hbz x hx3
        · simp only [if_neg hz]
          refine ⟨nodup_aset _ _ hbn, han, hain, ?_, hane, haz⟩
          intro x hx
          rcases (mem_aset_iff hbn).mp hx with hx | ⟨hx, _⟩
          · rw [hx]; exact hz
          · exact hbz x hx
      · subst hb
        exact ih
  | @disburse s0 bids total_cycles history_len k now hr ih =>
    have ihw := ih
    unfold StateWF ZeroElision at ihw
    obtain ⟨hbn, han, hain, hbz, hane, haz⟩ := ihw
    rcases disburse_snd_cases s0 bids total_cycles history_len k now with
      heq | ⟨b, l, transferred, hloop, heq⟩
    · rw [heq]; exact ih
    · rw [heq]
      obtain ⟨_, hn, hz⟩ := disburse_loop_preserves bids _ _ 0 hloop
      exact ⟨hn hbn, han, hain, hz hbn hbz, hane, haz⟩

/-- C4 (amended): in every state reachable from an init with nonzero
total supply through operations that never mint a zero amount to a
principal without a balance entry, no balance entry is zero, no
allowance entry is zero, and no owner maps to an empty inner allowance
map.  (The claim as stated fails: `mint(to, 0)` with `to` absent
inserts a zero balance entry, see the counterexample.) -/
theorem zero_elision_invariant (md : Metadata) (now0 : Nat)
    (hmd : md.totalSupply ≠ 0) (s : CanisterState)
    (h : GoodReachable md now0 s) : ZeroElision s :=
  (state_wf_invariant md now0 hmd s h).2.2.2

/-- Witness for C4: a concrete good-reachable state (init for a
1000-token deployment followed by a transfer) satisfies the invariants,
with the theorem's hypotheses discharged concretely. -/
theorem zero_elision_witness :
    ZeroElision (transfer (initState mdW 0) 1 2 100 none 0 1).2 :=
  zero_elision_invariant mdW 0 (by decide) _
    (GoodReachable.transfer 1 2 100 none 0 1 GoodReachable.init)

/-- C4 counterexample: from the reachable init state of a 1000-token
deployment, `mint` of amount 0 to the absent principal 2 succeeds and
leaves a zero balance entry — a reachable state violating zero-elision,
so the claim as stated is false on the code. -/
theorem zero_elision_counterexample :
    Reachable mdW 0 (mint (initState mdW 0) 1 2 0 1).2 ∧
    ¬ZeroElision (mint (initState mdW 0) 1 2 0 1).2 :=
  ⟨Reachable.mint 1 2 0 1 Reachable.init, by decide⟩

/-- Witness for C1 at a concrete reachable state: the init state of a
1000-token deployment followed by one transfer, with the reachability
hypothesis discharged by the constructors. -/
theorem supply_conservation_witness :
    asum (transfer (initState mdW 0) 1 2 100 none 0 1).2.balances =
      (transfer (initState mdW 0) 1 2 100 none 0 1).2.stats.total_supply :=
  supply_conservation mdW 0 _
    (Reachable.transfer 1 2 100 none 0 1 Reachable.init)

/-! ## Claim C7: the fee split of `charge_fee` -/

/-- C7: a successful `charge_fee` with nonzero fee `f` and ratio scaling
`k = ⌊r·10^12⌋ ≤ 10^12` moves exactly `f` out of the payer:
`auction_part = f * k / 10^12` (truncating division) is credited to the
auction principal, `f - auction_part` to `fee_to`, and the combined
balance of the auction principal and `fee_to` rises by exactly `f`,
when `fee_to` is distinct from the payer and from the auction principal
(the payer itself is never the auction principal: no call can originate
from the management canister). -/
theorem charge_fee_splits_fee {b b' : Bal} {user fee_to : Principal}
    {fee k : Nat} (hnd : NodupKeys b) (hf : fee ≠ 0)
    (hk : k ≤ INT_CONVERSION_K)
    (huf : user ≠ fee_to) (hua : user ≠ auction_principal)
    (hfa : fee_to ≠ auction_principal)
    (h : charge_fee b user fee_to fee k = .ok b') :
    fee ≤ balance_of b user ∧
    balance_of b' user = balance_of b user - fee ∧
    balance_of b' auction_principal =
      balance_of b auction_principal + fee * k / INT_CONVERSION_K ∧
    balance_of b' fee_to =
      balance_of b fee_to + (fee - fee * k / INT_CONVERSION_K) ∧
    balance_of b' auction_principal + balance_of b' fee_to =
      balance_of b auction_principal + balance_of b fee_to + fee := by
  obtain ⟨hu, ha, hft, hsuff, _⟩ := charge_fee_moves hnd huf hua hfa h
  have hak : fee * k / INT_CONVERSION_K ≤ fee := by
    rcases charge_fee_ok_inv h with ⟨hz, _⟩ | ⟨_, _, hak, _⟩
    · exact absurd hz hf
    · exact hak
  exact ⟨hsuff hf, hu, ha, hft, by omega⟩

/-- Witness for C7 at a concrete input: payer 1 holds 100, fee 50,
`fee_to` 3, ratio 0.5 (`k = 5·10^11`); the auction principal receives
25 and `fee_to` 25. -/
theorem charge_fee_splits_fee_witness :
    50 ≤ balance_of [(1, 100)] 1 ∧
    balance_of [(1, 50), (3, 25), (0, 25)] 1 = balance_of [(1, 100)] 1 - 50 ∧
    balance_of [(1, 50), (3, 25), (0, 25)] auction_principal =
      balance_of [(1, 100)] auction_principal +
        50 * 500000000000 / INT_CONVERSION_K ∧
    balance_of [(1, 50), (3, 25), (0, 25)] 3 =
      balance_of [(1, 100)] 3 +
        (50 - 50 * 500000000000 / INT_CONVERSION_K) ∧
    balance_of [(1, 50), (3, 25), (0, 25)] auction_principal +
        balance_of [(1, 50), (3, 25), (0, 25)] 3 =
      balance_of [(1, 100)] auction_principal +
        balance_of [(1, 100)] 3 + 50 :=
  charge_fee_splits_fee (by decide) (by decide)
    (by norm_num [INT_CONVERSION_K]) (by decide) (by decide) (by decide)
    (by decide)

/-! ## Claim C2: the `transfer` contract -/

/-- With no fee limit, or a fee limit at least the configured fee, the
fee-limit branch of `transfer` is not taken. -/
theorem transfer_not_exceeded (s : CanisterState) (caller toP : Principal)
    (amount : Nat) (fee_limit : Option Nat) (k now : Nat)
    (hfok : ∀ fl, fee_limit = some fl → s.stats.fee ≤ fl) :
    transfer s caller toP amount fee_limit k now =
      transfer s caller toP amount none k now := by
  rcases fee_limit with _ | fl
  · rfl
  · have hlt : ¬fl < s.stats.fee := not_lt.mpr (hfok fl rfl)
    simp [transfer, hlt]

/-- C2 (amended): behavior of `transfer(to, amount, fee_limit)` for a
caller distinct from the recipient, under the supply invariant and a
fee ratio scaling `k ≤ 10^12`: the fee-limit check comes first, then
the `amount + fee` overflow check, then the balance check; otherwise
the call succeeds, appends one `Transfer` record, returns its id, and —
with `fee_to` and the auction principal distinct from both caller and
recipient (fee aliasing redirects fee parts back, see the
counterexample) — debits the caller by exactly `amount + fee` and
credits the recipient by exactly `amount`. -/
theorem transfer_spec (s : CanisterState) (caller toP : Principal)
    (amount : Nat) (fee_limit : Option Nat) (k now : Nat)
    (hnd : NodupKeys s.balances)
    (hsum : asum s.balances = s.stats.total_supply)
    (hsup : s.stats.total_supply < U128)
    (hk : k ≤ INT_CONVERSION_K)
    (hct : caller ≠ toP)
    (hfc : s.stats.fee_to ≠ caller) (hftP : s.stats.fee_to ≠ toP)
    (hac : auction_principal ≠ caller) (hat : auction_principal ≠ toP) :
    (∀ fl, fee_limit = some fl → fl < s.stats.fee →
      transfer s caller toP amount fee_limit k now =
        (.err .FeeExceededLimit, s)) ∧
    ((∀ fl, fee_limit = some fl → s.stats.fee ≤ fl) →
      (U128 ≤ amount + s.stats.fee →
        transfer s caller toP amount fee_limit k now =
          (.err .AmountOverflow, s)) ∧
      (amount + s.stats.fee < U128 →
        (balance_of s.balances caller < amount + s.stats.fee →
          transfer s caller toP amount fee_limit k now =
            (.err .InsufficientBalance, s)) ∧
        (amount + s.stats.fee ≤ balance_of s.balances caller →
          ∃ s',
            transfer s caller toP amount fee_limit k now =
              (.ok s.ledger.len, s') ∧
            balance_of s'.balances caller =
              balance_of s.balances caller - (amount + s.stats.fee) ∧
            balance_of s'.balances toP =
              balance_of s.balances toP + amount ∧
            s'.ledger =
              s.ledger.transfer now caller toP amount s.stats.fee ∧
            s'.stats = s.stats ∧ s'.allowances = s.allowances))) := by
  constructor
  · intro fl hfl hlt
    subst hfl
    simp only [transfer]
    rw [if_pos (by simpa using hlt)]
  · intro hfok
    rw [transfer_not_exceeded s caller toP amount fee_limit k now hfok]
    constructor
    · intro hov
      have hnone : tadd amount s.stats.fee = none := by
        unfold tadd; rw [if_neg (by omega)]
      simp only [transfer, Bool.false_eq_true, if_false, hnone]
    · intro hlt
      have hsome : tadd amount s.stats.fee = some (amount + s.stats.fee) :=
        tadd_eq_some.mpr ⟨hlt, rfl⟩
      constructor
      · intro hbal
        simp only [transfer, Bool.false_eq_true, if_false, hsome]
        rw [if_pos hbal]
      · intro hbal
        have hsupb : asum s.balances < U128 := by omega
        have hfle : s.stats.fee ≤ balance_of s.balances caller := by omega
        obtain ⟨b1, hcf⟩ := charge_fee_total hnd hk hsupb hfle
          (fun hh => hfc hh.symm)
        obtain ⟨m1u, m1o⟩ := charge_fee_debit hnd
          (fun hh => hfc hh.symm) (fun hh => hac hh.symm) hcf
        have hnd1 : NodupKeys b1 := charge_fee_nodup hcf hnd
        have hsup1 : asum b1 < U128 := by
          rw [charge_fee_asum hcf]; exact hsupb
        have hble1 : amount ≤ balance_of b1 caller := by
          rw [m1u]; omega
        obtain ⟨b2, htb⟩ := @transfer_balance_total b1 caller toP amount
          hsup1 hble1
        obtain ⟨m2u, m2t, m2o⟩ := transfer_balance_moves hnd1 hct htb
        simp only [transfer, Bool.false_eq_true, if_false, hsome]
        rw [if_neg (by omega)]
        simp only [hcf, htb]
        refine ⟨_, rfl, ?_, ?_, rfl, rfl, rfl⟩
        · simp only
          rw [m2u, m1u]
          omega
        · simp only
          rw [m2t, m1o toP (fun hh => hct hh.symm) hftP.symm hat.symm]

/-- Witness for C2: at fee 50, ratio 0.5 and no fee limit, principal 1
transfers 100 to principal 2 and ends with 850; the transfer returns
id 0. -/
theorem transfer_spec_witness :
    ∃ s', transfer sC2w 1 2 100 none 500000000000 7 = (.ok 0, s') ∧
      balance_of s'.balances 1 = 850 ∧ balance_of s'.balances 2 = 100 := by
  obtain ⟨-, h2⟩ := transfer_spec sC2w 1 2 100 none 500000000000 7
    (by decide) (by decide) (by decide) (by norm_num [INT_CONVERSION_K])
    (by decide) (by decide) (by decide) (by decide) (by decide)
  obtain ⟨-, h3⟩ := h2 (fun fl h => by cases h)
  obtain ⟨-, h4⟩ := h3 (by decide)
  obtain ⟨s', hrun, hc, ht, -⟩ := h4 (by decide)
  refine ⟨s', by simpa using hrun, ?_, ?_⟩
  · rw [hc]; decide
  · rw [ht]; decide

/-- C2 counterexample: with `fee_to` equal to the caller, the transfer
of amount 1 with fee 5 succeeds but the caller is debited 1, not
`amount + fee = 6` — the unconditional "caller is debited amount + fee"
of the claim is false. -/
theorem transfer_spec_counterexample :
    (transfer sC2c 1 2 1 none 0 0).1 = .ok 0 ∧
    balance_of (transfer sC2c 1 2 1 none 0 0).2.balances 1 ≠
      balance_of sC2c.balances 1 - (1 + 5) := by decide

/-! ## Claim C9: approve of zero -/

/-- C9 (amended): when the configured fee is zero, `approve(p, 0)` by a
caller distinct from `p` succeeds, after it `allowance(caller, p)` is
zero with the `(caller, p)` entry absent from the inner map, and if the
caller's inner map was exactly `[(p, v)]` the outer entry is removed
too; balances are untouched.  (With a nonzero fee the claim fails: the
allowance is set to `0 + fee ≠ 0`, see the counterexample.) -/
theorem approve_zero_spec (s : CanisterState) (caller p : Principal)
    (k now : Nat) (hfee : s.stats.fee = 0) (hcp : caller ≠ p)
    (hnd : NodupKeys s.allowances)
    (hain : ∀ x ∈ s.allowances, NodupKeys x.2) :
    ∃ s', approve s caller p 0 k now = (.ok s.ledger.len, s') ∧
      s'.allowance caller p = 0 ∧
      (∀ inner, alookup s'.allowances caller = some inner →
        alookup inner p = none) ∧
      (∀ v, alookup s.allowances caller = some [(p, v)] →
        alookup s'.allowances caller = none) ∧
      s'.balances = s.balances := by
  have hcf : charge_fee s.balances caller s.stats.fee_to 0 k =
      .ok s.balances := by simp [charge_fee]
  have htadd : tadd 0 0 = some 0 := by decide
  simp only [approve, hfee]
  rw [if_neg (Nat.not_lt_zero _)]
  simp only [hcf, htadd, if_true, eq_self_iff_true]
  cases hbl : alookup s.allowances caller with
  | none =>
    simp only [hbl]
    refine ⟨_, rfl, ?_, ?_, ?_, rfl⟩
    · unfold CanisterState.allowance
      simp [hbl]
    · intro inner h
      simp [hbl] at h
    · intro v h
      simp [hbl] at h
  | some inner =>
    simp only [hbl]
    have hinnd : NodupKeys inner := hain _ (mem_of_alookup_eq_some hbl)
    by_cases hnil : aremove inner p = []
    · rw [if_pos hnil]
      refine ⟨_, rfl, ?_, ?_, ?_, rfl⟩
      · unfold CanisterState.allowance
        simp [alookup_aremove_self caller hnd]
      · intro inner2 h
        simp [alookup_aremove_self caller hnd] at h
      · intro v _
        exact alookup_aremove_self caller hnd
    · rw [if_neg hnil]
      refine ⟨_, rfl, ?_, ?_, ?_, rfl⟩
      · unfold CanisterState.allowance
        simp only [alookup_aset_self]
        simp [alookup_aremove_self p hinnd]
      · intro inner2 h
        simp only [alookup_aset_self, Option.some.injEq] at h
        rw [← h]
        exact alookup_aremove_self p hinnd
      · intro v hv
        injection hv with hv2
        rw [hv2] at hnil
        exact absurd (by simp [aremove]) hnil

/-- Witness for C9 at a concrete input: zero-fee state in which
principal 1 had approved 7 tokens for principal 2 only; `approve(2, 0)`
prunes everything. -/
theorem approve_zero_spec_witness :
    ∃ s', approve
        { balances := [(1, 10)]
          stats := { logo := "", name := "", symbol := "", decimals := 0,
                     total_supply := 10, owner := 1, fee := 0, fee_to := 3,
                     deploy_time := 0, min_cycles := 0,
                     is_test_token := false }
          allowances := [(1, [(2, 7)])]
          ledger := Ledger.empty } 1 2 0 0 5 =
        (.ok 0, s') ∧
      s'.allowance 1 2 = 0 ∧
      (∀ inner, alookup s'.allowances 1 = some inner →
        alookup inner 2 = none) ∧
      (∀ v, alookup [(1, [(2, 7)])] (1 : Principal) = some [(2, v)] →
        alookup s'.allowances 1 = none) ∧
      s'.balances = [(1, 10)] :=
  approve_zero_spec _ 1 2 0 5 (by decide) (by decide) (by decide)
    (by decide)

/-- C9 counterexample: with fee 5, `approve(2, 0)` succeeds but sets the
allowance to `0 + fee = 5`, so the follow-up `allowance(caller, p)` is
not zero and nothing is pruned. -/
theorem approve_zero_counterexample :
    (approve sC9 1 2 0 0 0).1 = .ok 0 ∧
    (approve sC9 1 2 0 0 0).2.allowance 1 2 = 5 := by decide

/-! ## Claim C3: the `transfer_from` zero-amount trap -/

/-- C3: evaluation of the code at the failing input.  With fee 0, no
allowance entry for `(alice = 1, bob = 2)` and amount 0, both the
allowance check (`0 < 0` fails) and the balance check pass, and then
`allowances.get_mut(&from).expect("allowance existing is checked
above…")` panics: the call traps instead of succeeding with a zero
allowance decrement as the claim requires. -/
theorem transfer_from_trap_on_zero_amount :
    transfer_from sC3 2 1 3 0 0 0 = (.trap, sC3) := by decide

/-! ## Claim C5: ledger truncation proofs -/

/-- Looking up after folding `aremove` over a record batch: a key is
gone iff it is one of the batch indices. -/
theorem alookup_foldl_aremove (rs : List TxRecord) :
    ∀ (m : List (Nat × Option Principal)), NodupKeys m → ∀ id,
      alookup (rs.foldl (fun n r => aremove n r.index) m) id =
        if id ∈ rs.map TxRecord.index then none else alookup m id := by
  induction rs with
  | nil => intro m _ id; simp
  | cons r rs ih =>
    intro m hnd id
    simp only [List.foldl_cons]
    rw [ih (aremove m r.index) (nodup_aremove _ hnd) id]
    by_cases hmem : id ∈ rs.map TxRecord.index
    · simp [hmem]
    · by_cases hr : id = r.index
      · subst hr
        simp [hmem, alookup_aremove_self _ hnd]
      · rw [if_neg hmem, alookup_aremove_ne _ hr]
        have : ¬id ∈ (r :: rs).map TxRecord.index := by
          simp only [List.map_cons, List.mem_cons]
          rintro (h | h)
          · exact hr h
          · exact hmem h
        rw [if_neg this]

/-- The indices of the first `n` retained records of a well-indexed
ledger are exactly `[vec_offset, vec_offset + n)`. -/
theorem mem_take_indices {l : Ledger} (hwi : WellIndexed l) {n : Nat}
    (hn : n ≤ l.history.length) (id : Nat) :
    id ∈ (l.history.take n).map TxRecord.index ↔
      l.vec_offset ≤ id ∧ id < l.vec_offset + n := by
  constructor
  · intro h
    obtain ⟨tx, htx, hid⟩ := List.mem_map.mp h
    obtain ⟨i, hget⟩ := List.mem_iff_get.mp htx
    have hmin : (i : Nat) < min n l.history.length := by
      simpa [List.length_take] using i.isLt
    have hlen : (i : Nat) < l.history.length := by omega
    have hgt : (l.history.take n).get i = l.history.get ⟨i, hlen⟩ := by
      rw [List.get_eq_getElem, List.get_eq_getElem]
      exact List.getElem_take l.history
    have hidx : tx.index = l.vec_offset + i := by
      rw [← hget, hgt]
      exact hwi i hlen
    omega
  · rintro ⟨h1, h2⟩
    have hlen : id - l.vec_offset < l.history.length := by omega
    refine List.mem_map.mpr
      ⟨l.history.get ⟨id - l.vec_offset, hlen⟩, ?_, ?_⟩
    · refine List.mem_take_iff_getElem.mpr
        ⟨id - l.vec_offset, by omega, ?_⟩
      rw [List.get_eq_getElem]
    · rw [hwi _ hlen]
      omega

/-- C5: (i) an append that pushes the physical history past
`MAX_HISTORY + REMOVAL_BATCH` drops exactly the oldest `REMOVAL_BATCH`
records as one batch and advances `vec_offset` by `REMOVAL_BATCH`;
(ii) the pending notifications of exactly the truncated indices are
removed (after the new record's notification is inserted); (iii) for
every ledger, `get id` is `none` iff `id < vec_offset` or
`id ≥ vec_offset + physical length`; (iv) `push` with the next id
preserves the position/index correspondence. -/
theorem ledger_push_spec (l : Ledger) (r : TxRecord)
    (hlen : MAX_HISTORY_LENGTH + HISTORY_REMOVAL_BATCH_SIZE ≤
      l.history.length)
    (hwi : WellIndexed l)
    (hr : r.index = l.vec_offset + l.history.length)
    (hnd : NodupKeys l.notifications) :
    (l.push r).history =
      (l.history ++ [r]).drop HISTORY_REMOVAL_BATCH_SIZE ∧
    (l.push r).vec_offset = l.vec_offset + HISTORY_REMOVAL_BATCH_SIZE ∧
    (∀ id, alookup (l.push r).notifications id =
      if l.vec_offset ≤ id ∧
          id < l.vec_offset + HISTORY_REMOVAL_BATCH_SIZE then none
      else alookup (aset l.notifications r.index none) id) ∧
    (∀ (l2 : Ledger) (id : Nat), l2.get id = none ↔
      (id < l2.vec_offset ∨ l2.vec_offset + l2.history.length ≤ id)) ∧
    (∀ (l2 : Ledger) (r2 : TxRecord), WellIndexed l2 →
      r2.index = l2.vec_offset + l2.history.length →
      WellIndexed (l2.push r2)) := by
  have hcond : MAX_HISTORY_LENGTH + HISTORY_REMOVAL_BATCH_SIZE <
      (l.history ++ [r]).length := by
    simp only [List.length_append, List.length_cons, List.length_nil]
    omega
  have hBle : HISTORY_REMOVAL_BATCH_SIZE ≤ l.history.length := by
    have h10 : HISTORY_REMOVAL_BATCH_SIZE = 10000 := rfl
    have hM : MAX_HISTORY_LENGTH = 1000000 := rfl
    omega
  refine ⟨?_, ?_, ?_, ?_, ?_⟩
  · simp only [Ledger.push]
    rw [if_pos hcond]
  · simp only [Ledger.push]
    rw [if_pos hcond]
  · intro id
    simp only [Ledger.push]
    rw [if_pos hcond]
    simp only
    rw [List.take_append_of_le_length hBle]
    rw [alookup_foldl_aremove _ _ (nodup_aset _ _ hnd) id]
    by_cases hmem : l.vec_offset ≤ id ∧
        id < l.vec_offset + HISTORY_REMOVAL_BATCH_SIZE
    · rw [if_pos ((mem_take_indices hwi hBle id).mpr hmem), if_pos hmem]
    · rw [if_neg (fun hc => hmem ((mem_take_indices hwi hBle id).mp hc)),
        if_neg hmem]
  · intro l2 id
    unfold Ledger.get
    by_cases hlt : id < l2.vec_offset
    · simp [hlt]
    · rw [if_neg hlt]
      rw [List.get?_eq_none]
      omega
  · intro l2 r2 hwi2 hr2
    unfold Ledger.push
    by_cases hc : MAX_HISTORY_LENGTH + HISTORY_REMOVAL_BATCH_SIZE <
        (l2.history ++ [r2]).length
    · rw [if_pos hc]
      intro i hi
      dsimp only at hi ⊢
      have hi2 : i < (l2.history ++ [r2]).length -
          HISTORY_REMOVAL_BATCH_SIZE := by
        simpa [List.length_drop] using hi
      have hlen2 : HISTORY_REMOVAL_BATCH_SIZE + i <
          (l2.history ++ [r2]).length := by
        simp only [List.length_append, List.length_cons, List.length_nil]
          at hi2 ⊢
        omega
      rw [List.get_eq_getElem, ← List.getElem_drop' _ hlen2]
      by_cases hin : HISTORY_REMOVAL_BATCH_SIZE + i < l2.history.length
      · rw [List.getElem_append_left hin]
        have hw := hwi2 (HISTORY_REMOVAL_BATCH_SIZE + i) hin
        rw [List.get_eq_getElem] at hw
        rw [hw]
        omega
      · have hieq : HISTORY_REMOVAL_BATCH_SIZE + i =
            l2.history.length := by
          simp only [List.length_append, List.length_cons,
            List.length_nil] at hlen2
          omega
        have hget : (l2.history ++ [r2])[HISTORY_REMOVAL_BATCH_SIZE + i] =
            r2 := by
          simp [hieq]
        rw [hget, hr2]
        omega
    · rw [if_neg hc]
      intro i hi
      dsimp only at hi ⊢
      have hi2 : i < l2.history.length + 1 := by
        simpa using hi
      rw [List.get_eq_getElem]
      by_cases hin : i < l2.history.length
      · rw [List.getElem_append_left hin]
        have hw := hwi2 i hin
        rw [List.get_eq_getElem] at hw
        rw [hw]
      · have hieq : i = l2.history.length := by omega
        have hlt : i < (l2.history ++ [r2]).length := by
          simp only [List.length_append, List.length_cons,
            List.length_nil]
          omega
        have hget : (l2.history ++ [r2])[i] = r2 := by
          simp [hieq]
        rw [hget, hr2, hieq]

set_option maxRecDepth 4000 in
/-- Witness for C5: pushing one more record onto a full well-indexed
ledger drops the oldest batch and advances `vec_offset` to 10000, with
all the theorem's hypotheses discharged at the concrete ledger. -/
theorem ledger_push_spec_witness :
    (ledgerW.push (recW 1010000)).history =
      (ledgerW.history ++ [recW 1010000]).drop
        HISTORY_REMOVAL_BATCH_SIZE ∧
    (ledgerW.push (recW 1010000)).vec_offset = 10000 := by
  have hlenW : ledgerW.history.length = 1010000 := by
    simp only [ledgerW]
    rw [List.length_map, List.length_range]
  obtain ⟨h1, h2, -, -, -⟩ := ledger_push_spec ledgerW (recW 1010000)
    (by rw [hlenW]; decide)
    (by
      intro i h
      simp [ledgerW, recW, TxRecord.transfer])
    (by
      rw [hlenW]
      simp [ledgerW, recW, TxRecord.transfer])
    (by simp [ledgerW, NodupKeys])
  refine ⟨h1, ?_⟩
  rw [h2]
  simp [ledgerW, HISTORY_REMOVAL_BATCH_SIZE]

/-! ## Claim C6: paginated query proofs -/

/-- A well-indexed ledger's history carries strictly increasing
indices. -/
theorem history_pairwise {l : Ledger} (hwi : WellIndexed l) :
    List.Pairwise (fun a b => a.index < b.index) l.history := by
  rw [List.pairwise_iff_get]
  intro i j hij
  rw [hwi i i.isLt, hwi j j.isLt]
  omega

/-- C6 (amended): `get_transactions(who, count, start)` returns records
newest-first (strictly decreasing indices), keeps only records passing
the `who`/`start` filters, returns at most `min(count, 1000)` records,
sets `next` to the index of the `(min(count, 1000) + 1)`-th filtered
record when it exists (`none` otherwise), and returns exactly
`min(count, 1000)` records whenever `next` is some.  (The claim's
"exactly count records" fails for `count > 1000`, see the
counterexample.) -/
theorem get_transactions_spec (s : CanisterState) (who : Option Principal)
    (count : Nat) (transaction_id : Option Nat)
    (hwi : WellIndexed s.ledger) :
    (get_transactions_api s who count transaction_id).result.length ≤
      min count MAX_TRANSACTION_QUERY_LEN ∧
    (∀ tx ∈ (get_transactions_api s who count transaction_id).result,
      Ledger.txFilter who transaction_id tx = true) ∧
    List.Pairwise (fun a b => b.index < a.index)
      (get_transactions_api s who count transaction_id).result ∧
    (get_transactions_api s who count transaction_id).next =
      ((s.ledger.history.reverse.filter
          (Ledger.txFilter who transaction_id)).get?
        (min count MAX_TRANSACTION_QUERY_LEN)).map TxRecord.index ∧
    ((get_transactions_api s who count transaction_id).next.isSome →
      (get_transactions_api s who count transaction_id).result.length =
        min count MAX_TRANSACTION_QUERY_LEN) := by
  set count2 := min count MAX_TRANSACTION_QUERY_LEN with hc2
  set filtered := s.ledger.history.reverse.filter
    (Ledger.txFilter who transaction_id) with hfil
  have hpair : List.Pairwise (fun a b => b.index < a.index) filtered := by
    apply List.Pairwise.sublist (List.filter_sublist _)
    rw [List.pairwise_reverse]
    exact history_pairwise hwi
  have hfl : ∀ tx ∈ filtered,
      Ledger.txFilter who transaction_id tx = true := by
    intro tx htx
    exact List.of_mem_filter htx
  have htakelen : (filtered.take (count2 + 1)).length =
      min (count2 + 1) filtered.length := List.length_take _ _
  unfold get_transactions_api Ledger.get_transactions
  rw [← hfil, ← hc2]
  by_cases hfull : (filtered.take (count2 + 1)).length = count2 + 1
  · rw [if_pos hfull]
    simp only
    refine ⟨?_, ?_, ?_, ?_, ?_⟩
    · rw [List.length_take]
      omega
    · intro tx htx
      exact hfl tx (List.mem_of_mem_take (List.mem_of_mem_take htx))
    · exact List.Pairwise.sublist
        ((List.take_sublist _ _).trans (List.take_sublist _ _)) hpair
    · rw [List.get?_take (by omega : count2 < count2 + 1)]
    · intro _
      rw [List.length_take] at hfull
      rw [List.length_take, List.length_take]
      omega
  · rw [if_neg hfull]
    simp only
    have hshort : filtered.length ≤ count2 := by
      rw [List.length_take] at hfull
      omega
    refine ⟨?_, ?_, ?_, ?_, ?_⟩
    · rw [List.length_take]
      omega
    · intro tx htx
      exact hfl tx (List.mem_of_mem_take htx)
    · exact List.Pairwise.sublist (List.take_sublist _ _) hpair
    · rw [eq_comm, Option.map_eq_none', List.get?_eq_none]
      omega
    · simp

set_option maxRecDepth 8000 in
/-- C6 counterexample: on a ledger with 1002 matching records, a query
for 1001 records has `next` set but returns 1000 records, not the
claimed "exactly `count`". -/
theorem get_transactions_counterexample :
    (get_transactions_api sC6 none 1001 none).next.isSome = true ∧
    (get_transactions_api sC6 none 1001 none).result.length ≠ 1001 := by
  decide

/-- Witness for C6: a query for two of the three records of a concrete
well-indexed ledger, with the well-indexedness hypothesis discharged by
computation. -/
theorem get_transactions_spec_witness :
    (get_transactions_api sW6 none 2 none).result.length ≤
      min 2 MAX_TRANSACTION_QUERY_LEN ∧
    (∀ tx ∈ (get_transactions_api sW6 none 2 none).result,
      Ledger.txFilter none none tx = true) ∧
    List.Pairwise (fun a b => b.index < a.index)
      (get_transactions_api sW6 none 2 none).result ∧
    (get_transactions_api sW6 none 2 none).next =
      ((sW6.ledger.history.reverse.filter (Ledger.txFilter none none)).get?
        (min 2 MAX_TRANSACTION_QUERY_LEN)).map TxRecord.index ∧
    ((get_transactions_api sW6 none 2 none).next.isSome →
      (get_transactions_api sW6 none 2 none).result.length =
        min 2 MAX_TRANSACTION_QUERY_LEN) :=
  get_transactions_spec sW6 none 2 none (by unfold WellIndexed; decide)

/-! ## Claim C8: auction disbursement proofs -/

/-- `Ledger::push` always grows `len` by one, truncation or not. -/
theorem push_len (l : Ledger) (r : TxRecord) :
    (l.push r).len = l.len + 1 := by
  simp only [Ledger.push]
  split
  · next h =>
    simp only [List.length_append, List.length_singleton] at h
    simp only [Ledger.len, List.length_drop, List.length_append,
      List.length_singleton]
    omega
  · simp only [Ledger.len, List.length_append, List.length_singleton]
    omega

/-- A push that keeps the physical history within the truncation bound
appends the record and keeps `vec_offset`. -/
theorem push_no_trunc {l : Ledger} (r : TxRecord)
    (h : l.history.length + 1 ≤
      MAX_HISTORY_LENGTH + HISTORY_REMOVAL_BATCH_SIZE) :
    (l.push r).history = l.history ++ [r] ∧
    (l.push r).vec_offset = l.vec_offset := by
  simp only [Ledger.push]
  rw [if_neg]
  · exact ⟨rfl, rfl⟩
  · simp only [List.length_append, List.length_singleton]
    omega

/-- The loop's pushes grow `len` by the number of bids. -/
theorem auctionPushes_len (now total_amount total_cycles : Nat)
    (bids : List (Principal × Nat)) : ∀ l : Ledger,
    (auctionPushes now total_amount total_cycles l bids).len =
      l.len + bids.length := by
  induction bids with
  | nil => intro l; simp [auctionPushes]
  | cons hd rest ih =>
    intro l
    obtain ⟨p, c⟩ := hd
    simp only [auctionPushes, List.length_cons]
    rw [ih, Ledger.record_auction, push_len]
    omega

/-- As long as the history stays within the truncation bound the loop's
pushes literally append one auction record per bid, indexed from the
entry `len`. -/
theorem auctionPushes_history (now total_amount total_cycles : Nat)
    (bids : List (Principal × Nat)) : ∀ l : Ledger,
    l.history.length + bids.length ≤
        MAX_HISTORY_LENGTH + HISTORY_REMOVAL_BATCH_SIZE →
    (auctionPushes now total_amount total_cycles l bids).history =
      l.history ++
        auctionRecords now total_amount total_cycles l.len bids := by
  induction bids with
  | nil => intro l _; simp [auctionPushes, auctionRecords]
  | cons hd rest ih =>
    intro l hlen
    obtain ⟨p, c⟩ := hd
    simp only [List.length_cons] at hlen
    simp only [auctionPushes, auctionRecords]
    have hone : l.history.length + 1 ≤
        MAX_HISTORY_LENGTH + HISTORY_REMOVAL_BATCH_SIZE := by omega
    have hpn := push_no_trunc
      (TxRecord.auction l.next_id now p (total_amount * c / total_cycles))
      hone
    have hrec : l.record_auction now p (total_amount * c / total_cycles) =
        l.push (TxRecord.auction l.next_id now p
          (total_amount * c / total_cycles)) := rfl
    have hbound :
        (l.record_auction now p
            (total_amount * c / total_cycles)).history.length +
          rest.length ≤
        MAX_HISTORY_LENGTH + HISTORY_REMOVAL_BATCH_SIZE := by
      rw [hrec, hpn.1, List.length_append, List.length_singleton]
      omega
    rw [ih _ hbound, hrec, hpn.1, push_len, List.append_assoc,
      List.singleton_append]
    rfl

/-- Summing floors is at most the floor of the sum: the per-bidder
shares total at most `total_amount * (total bid cycles) /
total_cycles`. -/
theorem sharesSum_le (total_amount total_cycles : Nat)
    (bids : List (Principal × Nat)) :
    sharesSum total_amount total_cycles bids ≤
      total_amount * (bids.map Prod.snd).sum / total_cycles := by
  induction bids with
  | nil => simp [sharesSum]
  | cons hd rest ih =>
    obtain ⟨p, c⟩ := hd
    simp only [sharesSum, List.map_cons, List.sum_cons] at ih ⊢
    calc total_amount * c / total_cycles +
        (rest.map (fun pc => total_amount * pc.2 / total_cycles)).sum
        ≤ total_amount * c / total_cycles +
            total_amount * (rest.map Prod.snd).sum / total_cycles :=
          Nat.add_le_add_left ih _
      _ ≤ (total_amount * c + total_amount * (rest.map Prod.snd).sum) /
            total_cycles := Nat.add_div_le_add_div _ _ _
      _ = total_amount * (c + (rest.map Prod.snd).sum) / total_cycles := by
          rw [Nat.mul_add]

/-- When the bid cycles total at most `total_cycles`, the distributed
shares total at most the pool. -/
theorem sharesSum_le_pool {total_amount total_cycles : Nat}
    (bids : List (Principal × Nat)) (hct : 0 < total_cycles)
    (hcy : (bids.map Prod.snd).sum ≤ total_cycles) :
    sharesSum total_amount total_cycles bids ≤ total_amount := by
  have h1 := sharesSum_le total_amount total_cycles bids
  have h2 : total_amount * (bids.map Prod.snd).sum ≤
      total_amount * total_cycles := Nat.mul_le_mul_left _ hcy
  have h3 : total_amount * (bids.map Prod.snd).sum / total_cycles ≤
      total_amount * total_cycles / total_cycles := Nat.div_le_div_right h2
  rw [Nat.mul_div_cancel _ hct] at h3
  omega

/-- Full specification of the `disburse_rewards` bidder loop, by
induction over the bid list: it succeeds, performs exactly the pushes of
`auctionPushes`, accumulates the shares total, debits the auction pool
by that total, credits every bidder with its own share, and touches no
other balance. -/
theorem disburse_loop_spec {total_amount total_cycles now : Nat}
    (hct : 0 < total_cycles) :
    ∀ (bids : List (Principal × Nat)) (b : Bal) (l : Ledger) (tr : Nat),
      NodupKeys b →
      asum b < U128 →
      tr + balance_of b auction_principal < U128 →
      sharesSum total_amount total_cycles bids ≤
        balance_of b auction_principal →
      (bids.map Prod.fst).Nodup →
      (∀ p ∈ bids.map Prod.fst, p ≠ auction_principal) →
      ∃ b',
        disburse_loop total_amount total_cycles now bids b l tr =
          .ok (b', auctionPushes now total_amount total_cycles l bids,
            tr + sharesSum total_amount total_cycles bids) ∧
        asum b' = asum b ∧
        NodupKeys b' ∧
        balance_of b' auction_principal =
          balance_of b auction_principal -
            sharesSum total_amount total_cycles bids ∧
        (∀ p c, (p, c) ∈ bids → balance_of b' p =
          balance_of b p + total_amount * c / total_cycles) ∧
        (∀ q, q ∉ bids.map Prod.fst → q ≠ auction_principal →
          balance_of b' q = balance_of b q) := by
  intro bids
  induction bids with
  | nil =>
    intro b l tr hnd hsum htr hsh _ _
    refine ⟨b, ?_, rfl, hnd, ?_, ?_, fun q _ _ => rfl⟩
    · simp [disburse_loop, sharesSum, auctionPushes]
    · simp [sharesSum]
    · intro p c hpc
      exact absurd hpc (List.not_mem_nil _)
  | cons hd rest ih =>
    intro b l tr hnd hsum htr hsh hbk hna
    obtain ⟨bidder, cycles⟩ := hd
    have hshc :
        sharesSum total_amount total_cycles ((bidder, cycles) :: rest) =
          total_amount * cycles / total_cycles +
            sharesSum total_amount total_cycles rest := by
      simp [sharesSum]
    have hamtle : total_amount * cycles / total_cycles ≤
        balance_of b auction_principal := by
      rw [hshc] at hsh
      omega
    have hbne : bidder ≠ auction_principal := hna bidder (by simp)
    obtain ⟨b1, htb⟩ :=
      @transfer_balance_total b auction_principal bidder
        (total_amount * cycles / total_cycles) hsum hamtle
    have hmv := transfer_balance_moves hnd
      (fun hh => hbne hh.symm) htb
    have hnd1 : NodupKeys b1 := transfer_balance_nodup htb hnd
    have hsum1 : asum b1 = asum b := transfer_balance_asum htb
    have hbk2 : bidder ∉ rest.map Prod.fst ∧ (rest.map Prod.fst).Nodup := by
      simpa using hbk
    have hna1 : ∀ p ∈ rest.map Prod.fst, p ≠ auction_principal :=
      fun p hp => hna p (by simp [hp])
    have htr1 : (tr + total_amount * cycles / total_cycles) +
        balance_of b1 auction_principal < U128 := by
      rw [hmv.1]
      omega
    have hsh1 : sharesSum total_amount total_cycles rest ≤
        balance_of b1 auction_principal := by
      have hsh2 := hsh
      rw [hshc] at hsh2
      rw [hmv.1]
      omega
    obtain ⟨b', heq, hsumE, hndE, hbalA, hper, hother⟩ :=
      ih b1 (l.record_auction now bidder
          (total_amount * cycles / total_cycles))
        (tr + total_amount * cycles / total_cycles)
        hnd1 (by omega) htr1 hsh1 hbk2.2 hna1
    refine ⟨b', ?_, by omega, hndE, ?_, ?_, ?_⟩
    · simp only [disburse_loop]
      rw [if_neg (by omega : ¬total_cycles = 0)]
      have hlt : total_amount * cycles / total_cycles < U128 :=
        lt_of_le_of_lt
          (le_trans hamtle (balance_of_le_asum b auction_principal)) hsum
      rw [if_neg (not_le.mpr hlt)]
      simp only [htb]
      have htadd : tadd tr (total_amount * cycles / total_cycles) =
          some (tr + total_amount * cycles / total_cycles) :=
        tadd_eq_some.mpr ⟨by omega, rfl⟩
      simp only [htadd]
      rw [hshc, ← Nat.add_assoc]
      exact heq
    · rw [hshc, hbalA, hmv.1]
      omega
    · intro p c hpc
      rcases List.mem_cons.mp hpc with hh | hin
      · rw [Prod.mk.injEq] at hh
        obtain ⟨hp, hc⟩ := hh
        subst hp
        subst hc
        rw [hother p hbk2.1 hbne, hmv.2.1]
      · have hpfst : p ∈ rest.map Prod.fst :=
          List.mem_map_of_mem Prod.fst hin
        have hpb : p ≠ bidder := fun hh => hbk2.1 (hh ▸ hpfst)
        have hpa : p ≠ auction_principal := hna1 p hpfst
        rw [hper p c hin, hmv.2.2 p hpa hpb]
    · intro q hq hqa
      have hqb : q ≠ bidder := by
        intro hh
        exact hq (by simp [hh])
      have hqr : q ∉ rest.map Prod.fst := by
        intro hh
        exact hq (by simp [hh])
      rw [hother q hqr hqa, hmv.2.2 q hqa hqb]

/-- C8: an auction settlement with a non-empty bid map (distinct
bidders, none of them the auction principal, bid cycles totalling at
most `total_cycles > 0`, well-formed balances) succeeds; every bidder
with `c` cycles receives exactly
`floor(pool * c / total_cycles)` tokens out of the auction principal's
pool, the shares total at most the pool, the flooring dust stays in the
auction principal's balance, one `Auction` ledger record is assigned
per bidder (`len` grows by the number of bids, and — absent history
truncation — the records are literally appended in order), and the
returned `AuctionInfo` carries the shares total and the first/last
assigned transaction ids. -/
theorem disburse_rewards_spec (s : CanisterState)
    (bids : List (Principal × Nat)) (total_cycles history_len k now : Nat)
    (hnd : NodupKeys s.balances) (hsup : asum s.balances < U128)
    (hnb : bids ≠ []) (hct : 0 < total_cycles)
    (hcy : (bids.map Prod.snd).sum ≤ total_cycles)
    (hbk : (bids.map Prod.fst).Nodup)
    (hna : ∀ p ∈ bids.map Prod.fst, p ≠ auction_principal) :
    sharesSum (accumulated_fees s.balances) total_cycles bids ≤
      accumulated_fees s.balances ∧
    (disburse_rewards s bids total_cycles history_len k now).1 =
      .ok { auction_id := history_len
            auction_time := now
            tokens_distributed :=
              sharesSum (accumulated_fees s.balances) total_cycles bids
            cycles_collected := total_cycles
            fee_ratio_k := k
            first_transaction_id := s.ledger.len
            last_transaction_id := s.ledger.len + bids.length - 1 } ∧
    (∀ p c, (p, c) ∈ bids →
      balance_of
          (disburse_rewards s bids total_cycles history_len k now).2.balances
          p =
        balance_of s.balances p +
          accumulated_fees s.balances * c / total_cycles) ∧
    balance_of
        (disburse_rewards s bids total_cycles history_len k now).2.balances
        auction_principal =
      accumulated_fees s.balances -
        sharesSum (accumulated_fees s.balances) total_cycles bids ∧
    (disburse_rewards s bids total_cycles history_len k now).2.ledger.len =
      s.ledger.len + bids.length ∧
    (s.ledger.history.length + bids.length ≤
        MAX_HISTORY_LENGTH + HISTORY_REMOVAL_BATCH_SIZE →
      (disburse_rewards s bids total_cycles history_len k
          now).2.ledger.history =
        s.ledger.history ++
          auctionRecords now (accumulated_fees s.balances) total_cycles
            s.ledger.len bids) := by
  have hpool : sharesSum (accumulated_fees s.balances) total_cycles bids ≤
      accumulated_fees s.balances := sharesSum_le_pool bids hct hcy
  have hpool2 : sharesSum (accumulated_fees s.balances) total_cycles bids ≤
      balance_of s.balances auction_principal := hpool
  have htr0 : 0 + balance_of s.balances auction_principal < U128 := by
    have := balance_of_le_asum s.balances auction_principal
    omega
  obtain ⟨b', heq, hsumE, hndE, hbalA, hper, hother⟩ :=
    @disburse_loop_spec (accumulated_fees s.balances) total_cycles now hct
      bids s.balances s.ledger 0 hnd hsup htr0 hpool2 hbk hna
  refine ⟨hpool, ?_, ?_, ?_, ?_, ?_⟩
  · simp only [disburse_rewards, heq]
    rw [auctionPushes_len]
    norm_num
  · intro p c hpc
    simp only [disburse_rewards, heq]
    exact hper p c hpc
  · simp only [disburse_rewards, heq]
    exact hbalA
  · simp only [disburse_rewards, heq]
    rw [auctionPushes_len]
  · intro hnt
    simp only [disburse_rewards, heq]
    exact auctionPushes_history now (accumulated_fees s.balances)
      total_cycles bids s.ledger hnt

/-- Witness for C8: two bidders with 2M and 4M of 6M cycles split a
6000-token pool as 2000/4000, with every hypothesis of the settlement
specification discharged at the concrete state. -/
theorem disburse_rewards_spec_witness :
    sharesSum (accumulated_fees sC8.balances) 6000000
        [(1, 2000000), (2, 4000000)] ≤
      accumulated_fees sC8.balances ∧
    (disburse_rewards sC8 [(1, 2000000), (2, 4000000)] 6000000 0 0 5).1 =
      .ok { auction_id := 0
            auction_time := 5
            tokens_distributed :=
              sharesSum (accumulated_fees sC8.balances) 6000000
                [(1, 2000000), (2, 4000000)]
            cycles_collected := 6000000
            fee_ratio_k := 0
            first_transaction_id := sC8.ledger.len
            last_transaction_id := sC8.ledger.len +
              ([(1, 2000000), (2, 4000000)] :
                List (Principal × Nat)).length - 1 } ∧
    (∀ p c,
      (p, c) ∈ ([(1, 2000000), (2, 4000000)] : List (Principal × Nat)) →
      balance_of
          (disburse_rewards sC8 [(1, 2000000), (2, 4000000)] 6000000 0 0
            5).2.balances p =
        balance_of sC8.balances p +
          accumulated_fees sC8.balances * c / 6000000) ∧
    balance_of
        (disburse_rewards sC8 [(1, 2000000), (2, 4000000)] 6000000 0 0
          5).2.balances auction_principal =
      accumulated_fees sC8.balances -
        sharesSum (accumulated_fees sC8.balances) 6000000
          [(1, 2000000), (2, 4000000)] ∧
    (disburse_rewards sC8 [(1, 2000000), (2, 4000000)] 6000000 0 0
        5).2.ledger.len =
      sC8.ledger.len +
        ([(1, 2000000), (2, 4000000)] : List (Principal × Nat)).length ∧
    (sC8.ledger.history.length +
        ([(1, 2000000), (2, 4000000)] : List (Principal × Nat)).length ≤
        MAX_HISTORY_LENGTH + HISTORY_REMOVAL_BATCH_SIZE →
      (disburse_rewards sC8 [(1, 2000000), (2, 4000000)] 6000000 0 0
          5).2.ledger.history =
        sC8.ledger.history ++
          auctionRecords 5 (accumulated_fees sC8.balances) 6000000
            sC8.ledger.len [(1, 2000000), (2, 4000000)]) :=
  disburse_rewards_spec sC8 [(1, 2000000), (2, 4000000)] 6000000 0 0 5
    (by decide) (by decide) (by decide) (by decide) (by decide)
    (by decide) (by decide)

/-! ## Claim C10: `get_holders` slice panic -/

end IS20
